import Mathlib

/-!
Shallow embedding of the tree consistency analysis and conflict-resolution
engine of the prior-authorization demo repository, covering
src/utils/tree_traversal.py and the conflict detectors and resolver in
src/agents/validation_agent.py and src/agents/conflict_resolver.py.

Python dicts are modelled as association lists in insertion order; Python
sets as lists with membership-based insertion; exceptions as Except values.
The external text-generation collaborator (LlmClient) is modelled as an
oracle parameter: theorems quantify over every possible oracle behaviour.
-/

namespace PriorAuth

/-- A Python value standing in a connection-target position: a plain id
string, a nested object (a non-empty dict with an optional id field), or
the value None. Nested objects model the malformed inputs the source
defends against; they are unhashable and truthy in Python. -/
inductive Target where
  | s (v : String)
  | obj (idField : Option String)
  | noneV
deriving DecidableEq, Repr

/-- Python truthiness of a target value: empty strings and None are falsy,
nonempty strings and (non-empty) dicts are truthy. -/
def Target.truthy : Target → Bool
  | .s v => v ≠ ""
  | .obj _ => true
  | .noneV => false

/-- A connection record in the list wire shape: a dict that may carry keys
"to", "target_node_id" and "condition". A missing key and an explicit None
are indistinguishable through dict.get, see pyGet. -/
structure ConnRec where
  toKey : Option Target
  targetNodeId : Option Target
  condKey : Option String
deriving DecidableEq, Repr

/-- Python dict.get semantics on an optional field: absent keys read as None. -/
def pyGet (o : Option Target) : Target :=
  o.getD .noneV

/-- The two wire shapes of a node connections value: a label-to-target
mapping (dict, in insertion order) or a list of connection records. -/
inductive Connections where
  | dictC (entries : List (String × Target))
  | listC (recs : List ConnRec)
deriving DecidableEq, Repr

/-- A node dict: every field the engine reads, each optional because the
inputs may be malformed. -/
structure Node where
  id : Option String
  type : Option String
  condition : Option String
  question : Option String
  decision : Option String
  connections : Option Connections
deriving DecidableEq, Repr

/-- The two wire shapes of a tree nodes container: an id-to-node mapping
(dict, in insertion order) or a plain list of nodes. -/
inductive Nodes where
  | dictN (entries : List (String × Node))
  | listN (l : List Node)
deriving DecidableEq, Repr

/-- A tree dict: the nodes key if present, plus the remaining top-level
entries modelled opaquely (the engine never reads them). -/
structure Tree where
  nodes : Option Nodes
  extra : List (String × String)
deriving DecidableEq, Repr

/-- A conflict record as produced by the detectors: a dict with optional
type, description, nodes and severity keys. -/
structure Conflict where
  type : Option String
  description : Option String
  nodes : Option (List String)
  severity : Option String
deriving DecidableEq, Repr

/-- One entry of a handler resolved list: the conflict it settles and the
action string. The resolution payload text is not modelled; no claim
inspects it. -/
structure ResolvedEntry where
  conflict : Conflict
  action : String
deriving DecidableEq, Repr

/-- The dict returned by one kind-specific handler. -/
structure HandlerResult where
  tree : Tree
  resolved : List ResolvedEntry
  unresolved : List Conflict
deriving DecidableEq, Repr

/-- The dict returned by ConflictResolver.resolve_conflicts. -/
structure ResolveResult where
  tree : Tree
  resolutions : List ResolvedEntry
  unresolved : List Conflict
deriving DecidableEq, Repr

/-- The conflicts argument of resolve_conflicts: either an actual list or a
value of some other runtime type, which the source replaces by []. -/
inductive ConflictsArg where
  | pyList (l : List Conflict)
  | notAList
deriving DecidableEq, Repr

/-- Model of the grouping dict insertion step: append the conflict to its
type bucket, creating the bucket at the end on first occurrence, exactly
as Python dict insertion order behaves in _group_conflicts_by_type. -/
def groupInsert (grouped : List (String × List Conflict)) (ty : String)
    (c : Conflict) : List (String × List Conflict) :=
  match grouped with
  | [] => [(ty, [c])]
  | (k, l) :: rest =>
      if k = ty then (k, l ++ [c]) :: rest
      else (k, l) :: groupInsert rest ty c

/-- Model of ConflictResolver._group_conflicts_by_type restricted to
dict-shaped conflicts (string conflicts are re-wrapped and other shapes
skipped by the source; the claims only concern dict conflicts). -/
def groupConflictsByType (conflicts : List Conflict) :
    List (String × List Conflict) :=
  conflicts.foldl (fun g c => groupInsert g (c.type.getD "unknown") c) []

/-- Model of the list comprehension in _resolve_circular_dependencies that
rebuilds node connections without the records pointing at toId. Iterating
a non-empty dict yields its string keys, on which .get raises
AttributeError, modelled as an error; an empty dict comprehends to an
empty list. -/
def removeToConnections (c : Connections) (toId : String) :
    Except Unit Connections :=
  match c with
  | .dictC [] => .ok (.listC [])
  | .dictC (_ :: _) => .error ()
  | .listC recs =>
      .ok (.listC (recs.filter (fun r => pyGet r.toKey ≠ Target.s toId)))

/-- Selection of the edge to cut, following _resolve_circular_dependencies:
a proper cycle list (length at least 3 whose first and last elements are
equal) cuts second-to-last to last; any other list falls back to cutting
last to first. Only reached when the list has at least 2 entries, so the
defaults are never used. -/
def cycleEdge (cyc : List String) : String × String :=
  if 3 ≤ cyc.length ∧ cyc.head? = cyc.getLast? then
    (((cyc.get? (cyc.length - 2)).getD ""), (cyc.getLast?.getD ""))
  else
    ((cyc.getLast?.getD ""), ((cyc.head?).getD ""))

/-- Python dict assignment nodes[k] = v: replace the value at an existing
key, otherwise append the new entry at the end. -/
def assocSet (l : List (String × Node)) (k : String) (v : Node) :
    List (String × Node) :=
  if l.any (fun p => p.1 = k) then
    l.map (fun p => if p.1 = k then (k, v) else p)
  else l ++ [(k, v)]

/-- Replace the value of the i-th entry of a dict, keeping its key: this is
what an in-place mutation of the i-th node object looks like through the
owning dict. -/
def updateValueAt (es : List (String × Node)) (i : Nat) (v : Node) :
    List (String × Node) :=
  match es, i with
  | [], _ => []
  | (k, _) :: rest, 0 => (k, v) :: rest
  | e :: rest, j + 1 => e :: updateValueAt rest j v

/-- State threaded through _resolve_circular_dependencies: the nodes
container of the tree and the nodes_list snapshot taken once at entry
(for a list container the snapshot is the container itself; for a dict it
is list(values), sharing the node objects, so in-place node mutations show
up in both while dict key assignments do not touch the snapshot). -/
structure CircState where
  container : Nodes
  snapshot : List Node
deriving DecidableEq, Repr

/-- One conflict step of _resolve_circular_dependencies. Returns the new
state plus the resolved entry or unresolved conflict; a conflict whose
from-node is not found in the snapshot produces neither (the source loop
falls through without appending anything). -/
def circStep (st : CircState) (c : Conflict) :
    CircState × Option ResolvedEntry × Option Conflict :=
  let cyc := c.nodes.getD []
  if 2 ≤ cyc.length then
    let e := cycleEdge cyc
    match st.snapshot.findIdx? (fun n => n.id = some e.1) with
    | none => (st, none, none)
    | some i =>
        match st.snapshot.get? i with
        | none => (st, none, none)
        | some n =>
            match removeToConnections (n.connections.getD (.listC [])) e.2 with
            | .error _ => (st, none, some c)
            | .ok c2 =>
                let n2 := { n with connections := some c2 }
                let snap2 := st.snapshot.set i n2
                let cont2 :=
                  match st.container with
                  | .listN _ => Nodes.listN snap2
                  | .dictN es => Nodes.dictN (assocSet (updateValueAt es i n2) e.1 n2)
                (⟨cont2, snap2⟩, some ⟨c, "Broke circular dependency"⟩, none)
  else
    (st, none, some c)

/-- Model of ConflictResolver._resolve_circular_dependencies. -/
def resolveCircularDependencies (tree : Tree) (conflicts : List Conflict) :
    HandlerResult :=
  let st0 : CircState :=
    match tree.nodes with
    | some (Nodes.dictN es) => ⟨Nodes.dictN es, es.map (fun p => p.2)⟩
    | some (Nodes.listN l) => ⟨Nodes.listN l, l⟩
    | none => ⟨Nodes.listN [], []⟩
  let fin := conflicts.foldl
    (fun (acc : CircState × List ResolvedEntry × List Conflict) c =>
      let r := circStep acc.1 c
      (r.1, acc.2.1 ++ r.2.1.toList, acc.2.2 ++ r.2.2.toList))
    (st0, [], [])
  let tree2 :=
    match tree.nodes with
    | some _ => { tree with nodes := some fin.1.container }
    | none => tree
  ⟨tree2, fin.2.1, fin.2.2⟩

/-- Connection rewriting pass of _resolve_redundant_paths: walk the rebuilt
node list in order and filter each surviving node's connections, stopping
with the partial updates kept when an operation raises (iterating a
non-empty dict of connections yields string keys without .get; a dict
value under the "to" key is unhashable in a set membership test). Returns
the updated node store and whether the pass completed. -/
def redunConnPass (removal : List String) :
    List Nat → List Node → List Node × Bool
  | [], o => (o, true)
  | i :: is, o =>
      match o.get? i with
      | none => redunConnPass removal is o
      | some n =>
          match n.connections with
          | none => redunConnPass removal is o
          | some (.dictC []) =>
              redunConnPass removal is
                (o.set i { n with connections := some (.listC []) })
          | some (.dictC (_ :: _)) => (o, false)
          | some (.listC recs) =>
              if recs.any (fun r =>
                  match pyGet r.toKey with
                  | .obj _ => true
                  | _ => false) then
                (o, false)
              else
                redunConnPass removal is
                  (o.set i { n with connections := some (.listC (recs.filter
                    (fun r =>
                      match pyGet r.toKey with
                      | .s v => ¬ v ∈ removal
                      | _ => true))) })

/-- State threaded through _resolve_redundant_paths when the captured nodes
value iterates as a list: the captured node store (in-place updates
visible) and, once some conflict has rebound the tree nodes key, the
indices into the store forming the current tree nodes list. -/
structure RedunState where
  orig : List Node
  cur : Option (List Nat)
deriving DecidableEq, Repr

/-- One conflict step of _resolve_redundant_paths over a list-like node
store. A conflict listing one node id or fewer produces neither a resolved
nor an unresolved entry (the source has no else branch). The second half
of the listed ids is deleted; the rebuild always iterates the node store
captured at handler entry. -/
def redunStep (st : RedunState) (c : Conflict) :
    RedunState × Option ResolvedEntry × Option Conflict :=
  let cyc := c.nodes.getD []
  if 1 < cyc.length then
    let removal := cyc.drop (cyc.length / 2)
    let newIdxs := (List.range st.orig.length).filter (fun i =>
      match st.orig.get? i with
      | some n =>
          match n.id with
          | some s => ¬ s ∈ removal
          | none => true
      | none => false)
    let p := redunConnPass removal newIdxs st.orig
    if p.2 then
      (⟨p.1, some newIdxs⟩, some ⟨c, "Consolidated redundant paths"⟩, none)
    else
      (⟨p.1, some newIdxs⟩, none, some c)
  else
    (st, none, none)

/-- Model of ConflictResolver._resolve_redundant_paths. A non-empty dict
node container makes every rebuild raise at its first key (string .get),
so each conflict listing more than one id lands in unresolved and the
tree is untouched; an empty dict, a list container, or a missing nodes
key iterate as an (possibly empty) list of nodes. -/
def resolveRedundantPaths (tree : Tree) (conflicts : List Conflict) :
    HandlerResult :=
  match tree.nodes with
  | some (Nodes.dictN (_ :: _)) =>
      let unres := conflicts.filter (fun c => 1 < (c.nodes.getD []).length)
      ⟨tree, [], unres⟩
  | other =>
      let orig0 : List Node :=
        match other with
        | some (Nodes.listN l) => l
        | _ => []
      let fin := conflicts.foldl
        (fun (acc : RedunState × List ResolvedEntry × List Conflict) c =>
          let r := redunStep acc.1 c
          (r.1, acc.2.1 ++ r.2.1.toList, acc.2.2 ++ r.2.2.toList))
        (⟨orig0, none⟩, [], [])
      let tree2 :=
        match fin.1.cur with
        | none => tree
        | some idxs =>
            { tree with nodes := some (Nodes.listN (idxs.filterMap
                (fun i => fin.1.orig.get? i))) }
      ⟨tree2, fin.2.1, fin.2.2⟩

/-- An oracle modelling one attempted contradictory-path repair: the
composition of LlmClient.generate_structured_json and
_apply_modifications, returning the action string (the resolution
description) and the modified tree, or failing (any exception in prompt
construction, generation or application). Theorems quantify over every
oracle, so every concrete behaviour of the external collaborator and of
the deterministic application code is covered. -/
def RepairOracle : Type :=
  Conflict → Tree → Except Unit (String × Tree)

/-- An oracle modelling LlmClient.generate_text for overlapping-condition
repair: the returned text, or a failure. -/
def TextOracle : Type :=
  Conflict → Except Unit String

/-- Model of ConflictResolver._resolve_contradictory_paths: each conflict
is attempted in turn against the current tree; success records a resolved
entry and threads the modified tree, failure appends the conflict to
unresolved and leaves the tree as it was before this attempt. -/
def resolveContradictoryPaths (llm : RepairOracle) (tree : Tree)
    (conflicts : List Conflict) : HandlerResult :=
  let fin := conflicts.foldl
    (fun (acc : Tree × List ResolvedEntry × List Conflict) c =>
      match llm c acc.1 with
      | .ok r => (r.2, acc.2.1 ++ [⟨c, r.1⟩], acc.2.2)
      | .error _ => (acc.1, acc.2.1, acc.2.2 ++ [c]))
    (tree, [], [])
  ⟨fin.1, fin.2.1, fin.2.2⟩

/-- Model of ConflictResolver._resolve_overlapping_conditions: the tree is
never modified; each conflict is resolved when the text generation call
succeeds and unresolved when it raises. -/
def resolveOverlappingConditions (llmText : TextOracle) (tree : Tree)
    (conflicts : List Conflict) : HandlerResult :=
  let fin := conflicts.foldl
    (fun (acc : List ResolvedEntry × List Conflict) c =>
      match llmText c with
      | .ok _ => (acc.1 ++ [⟨c, "Refined overlapping conditions"⟩], acc.2)
      | .error _ => (acc.1, acc.2 ++ [c]))
    ([], [])
  ⟨tree, fin.1, fin.2⟩

/-- Dispatch of one conflict-type group, following resolve_conflicts: the
four known ConflictType values each go to their handler and any other
type string returns the whole group unresolved with the tree unchanged. -/
def dispatchGroup (llm : RepairOracle) (llmText : TextOracle) (tree : Tree)
    (ty : String) (group : List Conflict) : HandlerResult :=
  if ty = "contradictory_paths" then
    resolveContradictoryPaths llm tree group
  else if ty = "circular_dependency" then
    resolveCircularDependencies tree group
  else if ty = "redundant_paths" then
    resolveRedundantPaths tree group
  else if ty = "overlapping_conditions" then
    resolveOverlappingConditions llmText tree group
  else
    ⟨tree, [], group⟩

/-- Model of ConflictResolver.resolve_conflicts: coerce a non-list
conflicts argument to [], return the input tree untouched when there is
nothing to resolve, otherwise group by type and fold the handlers over
the groups, concatenating their resolved and unresolved lists. -/
def resolveConflicts (llm : RepairOracle) (llmText : TextOracle)
    (tree : Tree) (arg : ConflictsArg) : ResolveResult :=
  let conflicts :=
    match arg with
    | .pyList l => l
    | .notAList => []
  if conflicts.isEmpty then
    ⟨tree, [], []⟩
  else
    let fin := (groupConflictsByType conflicts).foldl
      (fun (acc : Tree × List ResolvedEntry × List Conflict) g =>
        let r := dispatchGroup llm llmText acc.1 g.1 g.2
        (r.tree, acc.2.1 ++ r.resolved, acc.2.2 ++ r.unresolved))
      (tree, [], [])
    ⟨fin.1, fin.2.1, fin.2.2⟩

/-- Membership-based set insertion, modelling Python set.add. -/
def insertSet (l : List String) (x : String) : List String :=
  if x ∈ l then l else l ++ [x]

/-- Model of TraversalConfig; log_warnings only prints and is omitted. -/
structure TraversalConfig where
  maxDepth : Nat
  detectCycles : Bool
  raiseOnCycle : Bool
deriving DecidableEq, Repr

/-- The mutable instance state of SafeTreeTraverser during one call. -/
structure TravState where
  visited : List String
  currentPath : List String
  cycleDetected : Bool
deriving DecidableEq, Repr

/-- The key under which a node is tracked: its id field, with a stand-in
for the Python fallback str(id(node)) on id-less nodes (Python would give
distinct keys to distinct id-less objects; no claim depends on that). -/
def nodeKey (n : Node) : String :=
  n.id.getD "<pyobj>"

/-- Model of SafeTreeTraverser._traverse_recursive, parametrized by the
get_children callback (process_node results and contexts are not
observable by any claim and are omitted). Returns the updated state and
the number of nodes processed; an error models the RecursionError raised
under raise_on_cycle. Fuel is structural; the depth guard keeps any fuel
of at least max_depth + 2 - depth from being exhausted. The loop over
children threads the traverser state left to right. -/
def traverseRec (cfg : TraversalConfig) (ch : Node → List Node) :
    Nat → Node → Nat → TravState → Except Unit (TravState × Nat)
  | 0, _, _, st => .ok (st, 0)
  | fuel + 1, node, depth, st =>
      let nid := nodeKey node
      if cfg.maxDepth < depth then .ok (st, 0)
      else if cfg.detectCycles ∧ nid ∈ st.currentPath then
        if cfg.raiseOnCycle then .error ()
        else .ok ({ st with cycleDetected := true }, 0)
      else
        let st1 : TravState :=
          { st with currentPath := st.currentPath ++ [nid],
                    visited := insertSet st.visited nid }
        match (ch node).foldl
          (fun (acc : Except Unit (TravState × Nat)) c =>
            match acc with
            | .error e => .error e
            | .ok p =>
                match traverseRec cfg ch fuel c (depth + 1) p.1 with
                | .error e => .error e
                | .ok q => .ok (q.1, p.2 + q.2))
          (.ok (st1, 0)) with
        | .error e => .error e
        | .ok p =>
            let st3 :=
              if p.1.currentPath ≠ [] ∧ p.1.currentPath.getLast? = some nid
              then { p.1 with currentPath := p.1.currentPath.dropLast }
              else p.1
            .ok (st3, p.2 + 1)

/-- Model of SafeTreeTraverser.traverse_tree: reset the instance state and
start at depth 0. The fuel max_depth + 2 is enough for the depth guard to
fire before fuel runs out. -/
def traverseTree (cfg : TraversalConfig) (ch : Node → List Node)
    (node : Node) : Except Unit (TravState × Nat) :=
  traverseRec cfg ch (cfg.maxDepth + 2) node 0 ⟨[], [], false⟩

/-- First-match association lookup, modelling Python dict indexing (keys
are unique in a real dict, so first match is the match). -/
def assocFind (entries : List (String × Node)) (k : String) : Option Node :=
  (entries.find? (fun p => p.1 = k)).map (fun p => p.2)

/-- A node dict with no keys, the default for nodes.get lookups. -/
def emptyNode : Node :=
  ⟨none, none, none, none, none, none⟩

/-- Rendering of a target value inside an issue string; a nested object is
never rendered because the membership test on it raises first. -/
def targetText : Target → String
  | .s v => v
  | .noneV => "None"
  | .obj _ => "<dict>"

/-- The issue string for a self-referencing edge. -/
def selfRefMsg (nid : String) : String :=
  s!"Node {nid} has self-reference"

/-- The issue string for a connection target naming no existing node. -/
def danglingMsg (nid v : String) : String :=
  s!"Node {nid} references non-existent node {v}"

/-- The inner loop of the validate_tree_structure scan over one node's
mapping-shape connections: self-references and dangling targets append
issue strings and a nested-object target raises on the membership test. -/
def scanConnsDict (keys : List String) (nid : String)
    (conns : List (String × Target)) (issues : List String) :
    Except Unit (List String) :=
  conns.foldl
    (fun (a : Except Unit (List String)) q =>
      match a with
      | .error e => .error e
      | .ok iss =>
          if q.2 = Target.s nid then
            .ok (iss ++ [selfRefMsg nid])
          else
            match q.2 with
            | .obj _ => .error ()
            | t =>
                if keys.contains (targetText t) then .ok iss
                else .ok (iss ++ [danglingMsg nid (targetText t)]))
    (.ok issues)

/-- The inner loop of the validate_tree_structure scan over one node's
record-shape connections: the dangling check only fires on truthy values,
and a nested-object value (truthy) raises on the membership test. -/
def scanConnsRec (keys : List String) (nid : String)
    (recs : List ConnRec) (issues : List String) :
    Except Unit (List String) :=
  recs.foldl
    (fun (a : Except Unit (List String)) r =>
      match a with
      | .error e => .error e
      | .ok iss =>
          let t := pyGet r.targetNodeId
          if t = Target.s nid then
            .ok (iss ++ [selfRefMsg nid])
          else if t.truthy then
            match t with
            | .obj _ => .error ()
            | t2 =>
                if keys.contains (targetText t2) then .ok iss
                else .ok (iss ++ [danglingMsg nid (targetText t2)])
          else .ok iss)
    (.ok issues)

/-- The scan work for one node entry of validate_tree_structure. -/
def scanEntry (keys : List String) (p : String × Node)
    (issues : List String) : Except Unit (List String) :=
  match (p.2).connections.getD (.dictC []) with
  | .dictC conns => scanConnsDict keys p.1 conns issues
  | .listC recs => scanConnsRec keys p.1 recs issues

/-- Referential-integrity scan of validate_tree_structure (the loop before
the traversal-based cycle probe): self-references and dangling targets
become issue strings; a nested-object target reaches the membership test
target_id not in nodes, which raises TypeError (unhashable), modelled as
an error. The membership tests consult the unchanged node mapping, here
its key list. -/
def validateScan (entries : List (String × Node)) : Except Unit (List String) :=
  entries.foldl
    (fun (acc : Except Unit (List String)) p =>
      match acc with
      | .error e => .error e
      | .ok issues => scanEntry (entries.map (fun r => r.1)) p issues)
    (.ok [])

/-- Model of find_root_nodes on a dict container: collect every string id
referenced by some connection (extracting the id field of a nested-object
value in the mapping shape, and accepting only present string-valued
target_node_id keys in the record shape), then keep the nodes whose dict
key is unreferenced, falling back to the first node when none qualify. -/
def findRootNodes (entries : List (String × Node)) : List Node :=
  let referenced := entries.foldl
    (fun (acc : List String) p =>
      match (p.2).connections.getD (.dictC []) with
      | .dictC conns =>
          conns.foldl (fun a q =>
            match q.2 with
            | .s v => insertSet a v
            | .obj (some i) => insertSet a i
            | _ => a) acc
      | .listC recs =>
          recs.foldl (fun a r =>
            match r.targetNodeId with
            | some (.s v) => insertSet a v
            | _ => a) acc)
    []
  let roots := (entries.filter (fun p => ¬ p.1 ∈ referenced)).map (fun p => p.2)
  if roots.isEmpty then
    match entries with
    | [] => []
    | e :: _ => [e.2]
  else roots

/-- The get_children closure defined inside validate_tree_structure: in the
mapping shape a nested-object target is normalized to its id field and a
truthy id present in the container yields the child; in the record shape
any present target_node_id found in the container yields the child (a
nested-object value there cannot be reached because the scan phase has
already raised on it). -/
def validateChildren (entries : List (String × Node)) (n : Node) : List Node :=
  match n.connections.getD (.dictC []) with
  | .dictC conns =>
      conns.foldl (fun (acc : List Node) q =>
        let tid : Option String :=
          match q.2 with
          | .s v => some v
          | .obj i => i
          | .noneV => none
        match tid with
        | some v =>
            if v ≠ "" then
              match assocFind entries v with
              | some child => acc ++ [child]
              | none => acc
            else acc
        | none => acc) []
  | .listC recs =>
      recs.foldl (fun (acc : List Node) r =>
        match pyGet r.targetNodeId with
        | .s v =>
            match assocFind entries v with
            | some child => acc ++ [child]
            | none => acc
        | _ => acc) []

/-- The traversal-based cycle probe of validate_tree_structure: run the
Safe Traverser from every inferred root with the default depth bound and
cycle detection on, and report an issue for each root whose walk detected
a cycle. With raise_on_cycle false the traversal cannot error. -/
def validateCycleIssues (entries : List (String × Node)) : List String :=
  (findRootNodes entries).foldl
    (fun acc root =>
      match traverseTree ⟨50, true, false⟩ (validateChildren entries) root with
      | .ok (st, _) =>
          if st.cycleDetected then
            let rid := root.id.getD "unknown"
            acc ++ [s!"Circular reference detected starting from node {rid}"]
          else acc
      | .error _ => acc)
    []

/-- Model of validate_tree_structure: a non-dict container is reported as
invalid immediately; otherwise run the referential scan (which can raise
on nested-object targets) and, when the container is non-empty, the cycle
probe, and declare validity exactly when no issue accumulated. -/
def validate_tree_structure (nodes : Nodes) : Except Unit (Bool × List String) :=
  match nodes with
  | .listN _ => .ok (false, ["Nodes must be a dictionary"])
  | .dictN entries =>
      match validateScan entries with
      | .error e => .error e
      | .ok issues1 =>
          let issues2 :=
            if entries.isEmpty then issues1
            else issues1 ++ validateCycleIssues entries
          .ok (issues2.isEmpty, issues2)

/-- The shared closure state of detect_circular_references: the global
fully-visited set and the accumulated cycle list. -/
structure DetectState where
  visited : List String
  refs : List (List String)
deriving DecidableEq, Repr

/-- The successor ids a given connections value contributes inside the dfs
of detect_circular_references, before the membership guards: mapping-shape
values have a nested-object id extracted; record-shape values are used
raw, so a nested-object there hits a truthiness-then-membership test whose
membership raises (signalled by the error flag on that entry). Each
element is the candidate (none when the raw value resolves to None) plus
whether touching it raises. -/
def detectSuccessors (c : Connections) : List (Option String × Bool) :=
  match c with
  | .dictC conns =>
      conns.map (fun q =>
        match q.2 with
        | .s v => (some v, false)
        | .obj i => (i, false)
        | .noneV => (none, false))
  | .listC recs =>
      recs.map (fun r =>
        match pyGet r.targetNodeId with
        | .s v => (some v, false)
        | .obj _ => (none, true)
        | .noneV => (none, false))

/-- The dfs of detect_circular_references: a node already in the
per-branch visiting set closes a cycle captured as the path suffix from
its first occurrence; a globally visited node is skipped; otherwise the
node is pushed on copies of path and visiting, its in-container
successors explored in order, and the node finally marked globally
visited. A nested-object target in the record shape raises. -/
def dfsDetect (entries : List (String × Node)) :
    Nat → String → List String → List String → DetectState →
    Except Unit DetectState
  | 0, _, _, _, st => .ok st
  | fuel + 1, nid, path, visiting, st =>
      if nid ∈ visiting then
        .ok { st with refs := st.refs ++ [path.drop (path.indexOf nid) ++ [nid]] }
      else if nid ∈ st.visited then
        .ok st
      else
        let path2 := path ++ [nid]
        let visiting2 := visiting ++ [nid]
        let node := (assocFind entries nid).getD emptyNode
        let succs := detectSuccessors (node.connections.getD (.dictC []))
        let after := succs.foldl
          (fun (acc : Except Unit DetectState) s =>
            match acc with
            | .error e => .error e
            | .ok st2 =>
                if s.2 then .error ()
                else
                  match s.1 with
                  | some v =>
                      if v ≠ "" ∧ (entries.map (fun p => p.1)).contains v then
                        dfsDetect entries fuel v path2 visiting2 st2
                      else .ok st2
                  | none => .ok st2)
          (.ok st)
        match after with
        | .error e => .error e
        | .ok st3 => .ok { st3 with visited := insertSet st3.visited nid }

/-- Model of detect_circular_references: absent nodes key (or wholly falsy
tree) gives no cycles; iterating a non-empty list container puts node
dicts into a set membership test, which raises; a dict container is
explored from every not-yet-visited key in order. -/
def detect_circular_references (tree : Tree) : Except Unit (List (List String)) :=
  match tree.nodes with
  | none => .ok []
  | some (.listN []) => .ok []
  | some (.listN (_ :: _)) => .error ()
  | some (.dictN entries) =>
      let fin := entries.foldl
        (fun (acc : Except Unit DetectState) p =>
          match acc with
          | .error e => .error e
          | .ok st =>
              if p.1 ∈ st.visited then .ok st
              else dfsDetect entries (entries.length + 2) p.1 [] [] st)
        (.ok ⟨[], []⟩)
      match fin with
      | .error e => .error e
      | .ok st => .ok st.refs

/-- The successor ids a connections value contributes inside the dfs of
find_all_paths: the mapping shape extracts a nested-object id before the
truthiness and membership guards; the record shape uses the raw value, on
which a nested object raises in the membership test. -/
def pathSuccessors (c : Connections) : List (Option String × Bool) :=
  match c with
  | .dictC conns =>
      conns.map (fun q =>
        match q.2 with
        | .s v => (some v, false)
        | .obj i => (i, false)
        | .noneV => (none, false))
  | .listC recs =>
      recs.map (fun r =>
        match pyGet r.targetNodeId with
        | .s v => (some v, false)
        | .obj _ => (none, true)
        | .noneV => (none, false))

/-- The dfs of find_all_paths: reaching the target appends the completed
path (this test precedes the visited test); a visited node prunes the
branch; otherwise the node joins per-branch copies of visited and path
and every truthy in-container not-yet-visited successor is explored. -/
def dfsPaths (entries : List (String × Node)) :
    Nat → String → String → List String → List String →
    List (List String) → Except Unit (List (List String))
  | 0, _, _, _, _, acc => .ok acc
  | fuel + 1, current, target, path, visited, acc =>
      if current = target then
        .ok (acc ++ [path ++ [current]])
      else if current ∈ visited then
        .ok acc
      else
        let visited2 := visited ++ [current]
        let path2 := path ++ [current]
        let node := (assocFind entries current).getD emptyNode
        let succs := pathSuccessors (node.connections.getD (.dictC []))
        succs.foldl
          (fun (a : Except Unit (List (List String))) s =>
            match a with
            | .error e => .error e
            | .ok acc2 =>
                if s.2 then .error ()
                else
                  match s.1 with
                  | some v =>
                      if v ≠ "" ∧ (entries.map (fun p => p.1)).contains v
                          ∧ ¬ v ∈ visited2 then
                        dfsPaths entries fuel v target path2 visited2 acc2
                      else .ok acc2
                  | none => .ok acc2)
          (.ok acc)

/-- Model of find_all_paths: a tree without a nodes key gives no paths; a
list container never contains the start id as an element (string against
node dict comparisons), so the early not-in-nodes return fires; on a dict
container the dfs starts from the start id. -/
def find_all_paths (tree : Tree) (startId endId : String) :
    Except Unit (List (List String)) :=
  match tree.nodes with
  | none => .ok []
  | some (.listN _) => .ok []
  | some (.dictN entries) =>
      let keys := entries.map (fun p => p.1)
      if keys.contains startId ∧ keys.contains endId then
        dfsPaths entries (entries.length + 2) startId endId [] [] []
      else
        .ok []

/-- Python equality between a node id field (a string or None) and a raw
target value: None equals None, strings compare by value, and a nested
object equals neither. -/
def pyIdEq (i : Option String) (t : Target) : Bool :=
  match i, t with
  | some s, .s v => s = v
  | none, .noneV => true
  | _, _ => false

/-- Model of ValidationAgent._find_node_by_id: dict containers index by the
raw value, raising on an unhashable nested object; list containers scan
for a node whose id field compares equal. -/
def findNodeById (nodes : Nodes) (t : Target) : Except Unit (Option Node) :=
  match nodes, t with
  | .dictN entries, .s v => .ok (assocFind entries v)
  | .dictN _, .noneV => .ok none
  | .dictN _, .obj _ => .error ()
  | .listN l, t => .ok (l.find? (fun n => pyIdEq n.id t))

/-- The node values of a tree in iteration order, as the nodes_list the
detectors build (dict containers contribute their values). -/
def treeNodesList (tree : Tree) : List Node :=
  match tree.nodes.getD (.dictN []) with
  | .dictN es => es.map (fun p => p.2)
  | .listN l => l

/-- Decision labels of the directly reachable outcome nodes of one node,
as collected by _detect_contradictory_paths: mapping-shape targets are
looked up raw, record-shape connections are followed through their "to"
key; a found node contributes its decision label when it is truthy (a
non-empty dict) and outcome-typed. -/
def outcomesOf (nodes : Nodes) (n : Node) : Except Unit (Finset String) :=
  let add : Finset String → Option Node → Finset String := fun s tn? =>
    match tn? with
    | some tn =>
        if tn ≠ emptyNode ∧ tn.type = some "outcome" then
          insert (tn.decision.getD "") s
        else s
    | none => s
  match n.connections.getD (.dictC []) with
  | .dictC conns =>
      conns.foldl (fun (acc : Except Unit (Finset String)) q =>
        match acc with
        | .error e => .error e
        | .ok s =>
            match findNodeById nodes q.2 with
            | .error e => .error e
            | .ok tn? => .ok (add s tn?))
        (.ok ∅)
  | .listC recs =>
      recs.foldl (fun (acc : Except Unit (Finset String)) r =>
        match acc with
        | .error e => .error e
        | .ok s =>
            match findNodeById nodes (pyGet r.toKey) with
            | .error e => .error e
            | .ok tn? => .ok (add s tn?))
        (.ok ∅)

/-- State of the fold in _detect_contradictory_paths: the condition-text to
outcome-set map in insertion order, and the conflicts accumulated. -/
structure ContraState where
  condMap : List (String × Finset String)
  conflicts : List Conflict

/-- Model of ValidationAgent._detect_contradictory_paths: each
decision-typed node has the outcome labels directly reachable from it
collected into a set; the second and later nodes sharing a condition text
whose set differs from the first recorded one are reported, severity high,
listing only the offending node (whose missing id key would raise). -/
def detectContradictoryPaths (tree : Tree) : Except Unit (List Conflict) :=
  let nodes := tree.nodes.getD (.dictN [])
  let fin := (treeNodesList tree).foldl
    (fun (acc : Except Unit ContraState) n =>
      match acc with
      | .error e => .error e
      | .ok st =>
          if n.type = some "decision" then
            let cond := n.condition.getD ""
            match outcomesOf nodes n with
            | .error e => .error e
            | .ok outs =>
                match st.condMap.find? (fun p => p.1 = cond) with
                | some prev =>
                    if prev.2 ≠ outs then
                      match n.id with
                      | none => .error ()
                      | some nid =>
                          .ok { st with conflicts := st.conflicts ++
                            [⟨some "contradictory_paths",
                              some s!"Condition \"{cond}\" leads to different outcomes",
                              some [nid], some "high"⟩] }
                    else .ok st
                | none => .ok { st with condMap := st.condMap ++ [(cond, outs)] }
          else .ok st)
    (.ok ⟨[], []⟩)
  match fin with
  | .error e => .error e
  | .ok st => .ok st.conflicts

/-- Python whitespace characters for str.split with no argument. -/
def isPySpace (c : Char) : Bool :=
  c = ' ' ∨ c = '\t' ∨ c = '\n' ∨ c = '\r' ∨ c = '\x0b' ∨ c = '\x0c'

/-- Worker for pySplit over the character list: collect maximal non-space
runs, dropping empties (structural recursion stands in for the built-in
splitter, which is defined by well-founded recursion on byte positions
and does not reduce in the kernel). -/
def wordsAux : List Char → List Char → List String
  | [], acc => if acc.isEmpty then [] else [String.mk acc.reverse]
  | c :: cs, acc =>
      if isPySpace c then
        (if acc.isEmpty then wordsAux cs []
         else String.mk acc.reverse :: wordsAux cs [])
      else wordsAux cs (c :: acc)

/-- Python str.split(): split on whitespace runs and drop empty pieces. -/
def pySplit (s : String) : List String :=
  wordsAux s.data []

/-- Python str.lower() on the character list (ASCII, as Char.toLower). -/
def pyLower (s : String) : String :=
  String.mk (s.data.map Char.toLower)

/-- The lowercase word set of a condition text, as built from
condition.lower().split(). -/
def wordSet (s : String) : Finset String :=
  (pySplit (pyLower s)).toFinset

/-- The stopword list subtracted in _conditions_overlap. -/
def commonWords : Finset String :=
  {"is", "the", "and", "or", "not", "has", "have", "with", "than",
   "greater", "less"}

/-- Model of ValidationAgent._conditions_overlap: intersect the two word
sets, subtract the stopwords, and flag when at least two words remain. -/
def conditions_overlap (c1 c2 : String) : Bool :=
  2 ≤ ((wordSet c1 ∩ wordSet c2) \ commonWords).card

/-- The conflict record emitted for one overlapping pair; a missing id key
on either node raises. -/
def overlapConflict (n1 n2 : Node) : Except Unit Conflict :=
  match n1.id, n2.id with
  | some i1, some i2 =>
      let c1 := n1.condition.getD ""
      let c2 := n2.condition.getD ""
      .ok ⟨some "overlapping_conditions",
        some s!"Conditions may overlap: \"{c1}\" and \"{c2}\"",
        some [i1, i2], some "low"⟩
  | _, _ => .error ()

/-- The inner loop of _detect_overlapping_conditions for one earlier node
against the later nodes: flagged pairs append their conflict, and a
flagged pair with a missing id raises KeyError. -/
def overlapInner (n1 : Node) (others : List Node) (cs : List Conflict) :
    Except Unit (List Conflict) :=
  others.foldl
    (fun (a : Except Unit (List Conflict)) n2 =>
      match a with
      | .error e => .error e
      | .ok cs2 =>
          if conditions_overlap (n1.condition.getD "") (n2.condition.getD "") then
            match overlapConflict n1 n2 with
            | .error e => .error e
            | .ok c => .ok (cs2 ++ [c])
          else .ok cs2)
    (.ok cs)

/-- Model of ValidationAgent._detect_overlapping_conditions: every ordered
pair of distinct positions (earlier, later) among the decision-typed
nodes is tested with _conditions_overlap and the flagged pairs are
reported in loop order, severity low. -/
def detectOverlappingConditions (tree : Tree) : Except Unit (List Conflict) :=
  let dns := (treeNodesList tree).filter (fun n => n.type = some "decision")
  (List.range dns.length).foldl
    (fun (acc : Except Unit (List Conflict)) i =>
      match acc with
      | .error e => .error e
      | .ok cs =>
          match dns.get? i with
          | none => .ok cs
          | some n1 => overlapInner n1 (dns.drop (i + 1)) cs)
    (.ok [])

/-- Replace the connections value of a node, as an in-place assignment to
its connections key does. -/
def setConns (n : Node) (c : Connections) : Node :=
  { n with connections := some c }

/-! Concrete instances used by counterexamples and witnesses. -/

/-- Node n3 with mapping-shape connections pointing at n4. -/
def n3Dict : Node :=
  ⟨some "n3", some "decision", none, none, none,
   some (.dictC [("loop", .s "n4")])⟩

/-- Node n4 with mapping-shape connections pointing back at n3. -/
def n4Dict : Node :=
  ⟨some "n4", some "decision", none, none, none,
   some (.dictC [("back", .s "n3")])⟩

/-- A two-node cyclic tree in the label-to-id mapping wire shape. -/
def treeDictCycle : Tree :=
  ⟨some (.listN [n3Dict, n4Dict]), []⟩

/-- The circular-dependency conflict for the cycle [n3, n4, n3]. -/
def cycleConflict : Conflict :=
  ⟨some "circular_dependency",
   some "Circular dependency detected: n3 -> n4 -> n3",
   some ["n3", "n4", "n3"], some "critical"⟩

/-- Node n3 in the record wire shape. -/
def n3Rec : Node :=
  ⟨some "n3", some "decision", none, none, none,
   some (.listC [⟨some (.s "n4"), none, none⟩])⟩

/-- Node n4 in the record wire shape, with the cycle-closing record and one
unrelated record. -/
def n4Rec : Node :=
  ⟨some "n4", some "decision", none, none, none,
   some (.listC [⟨some (.s "n3"), none, none⟩, ⟨some (.s "x"), none, none⟩])⟩

/-- The two-node cyclic tree in the record wire shape. -/
def treeRecCycle : Tree :=
  ⟨some (.listN [n3Rec, n4Rec]), []⟩

/-- C10: with an empty conflicts list, or a conflicts argument that is not
a list at all, resolve_conflicts returns the very input tree with empty
resolutions and unresolved lists, independently of the repair and
text-generation oracles (so neither collaborator nor any handler is
consulted). -/
theorem resolveConflicts_no_conflicts_frame :
    ∀ (llm : RepairOracle) (llmText : TextOracle) (tree : Tree),
      resolveConflicts llm llmText tree (.pyList []) = ⟨tree, [], []⟩ ∧
      resolveConflicts llm llmText tree .notAList = ⟨tree, [], []⟩ :=
  fun _ _ _ => ⟨rfl, rfl⟩

/-- C1 counterexample: on the cycle [n3, n4, n3] with connections in the
label-to-id mapping wire shape, the circular-dependency repair removes
nothing — the tree comes back unchanged, n4 still holding its edge to n3 —
and the conflict lands in unresolved, because the source iterates the
mapping as string keys and calling .get on a string raises. -/
theorem circularRepair_mapping_shape_counterexample :
    resolveCircularDependencies treeDictCycle [cycleConflict] =
      ⟨treeDictCycle, [], [cycleConflict]⟩ ∧
    n4Dict.connections = some (.dictC [("back", .s "n3")]) := by
  constructor
  · rfl
  · rfl

/-- C1 (amended): for a conflict whose nodes list has at least two
entries, the repair cuts the edge selected by cycleEdge (second-to-last
to last for a proper cycle list of length at least 3 with equal ends,
otherwise last to first). When the first node carrying the from id has
record-shape connections, exactly the records whose to key equals the
cut target are removed and every other record and every other node is
left intact, and the conflict is reported resolved; when that node's
connections are a non-empty label-to-id mapping, the repair raises
internally, removes nothing and returns the conflict unresolved. -/
theorem circularRepair_cuts_closing_edge :
    (∀ (ns : List Node) (extra : List (String × String)) (c : Conflict)
        (cyc : List String), c.nodes = some cyc → 2 ≤ cyc.length →
        ∀ (i : Nat),
          ns.findIdx? (fun n => n.id = some (cycleEdge cyc).1) = some i →
        ∀ (n : Node), ns[i]? = some n →
        ∀ (recs : List ConnRec),
          n.connections.getD (.listC []) = .listC recs →
        resolveCircularDependencies ⟨some (.listN ns), extra⟩ [c] =
          ⟨⟨some (.listN (ns.set i (setConns n (.listC (recs.filter
              (fun r => pyGet r.toKey ≠ Target.s (cycleEdge cyc).2)))))),
            extra⟩,
           [⟨c, "Broke circular dependency"⟩], []⟩) ∧
    (∀ (ns : List Node) (extra : List (String × String)) (c : Conflict)
        (cyc : List String), c.nodes = some cyc → 2 ≤ cyc.length →
        ∀ (i : Nat),
          ns.findIdx? (fun n => n.id = some (cycleEdge cyc).1) = some i →
        ∀ (n : Node), ns[i]? = some n →
        ∀ (e : String × Target) (es : List (String × Target)),
          n.connections = some (.dictC (e :: es)) →
        resolveCircularDependencies ⟨some (.listN ns), extra⟩ [c] =
          ⟨⟨some (.listN ns), extra⟩, [], [c]⟩) := by
  constructor
  · intro ns extra c cyc hc h2 i hi n hn recs hr
    unfold resolveCircularDependencies
    simp only [List.foldl]
    unfold circStep
    simp only [hc, Option.getD_some, hi, List.get?_eq_getElem?, hn, hr]
    simp [h2, setConns, removeToConnections]
  · intro ns extra c cyc hc h2 i hi n hn e es hconn
    unfold resolveCircularDependencies
    simp only [List.foldl]
    unfold circStep
    simp only [hc, Option.getD_some, hi, List.get?_eq_getElem?, hn, hconn]
    simp [h2, removeToConnections]

/-- Witness for circularRepair_cuts_closing_edge: the record-shape
conjunct at the spec's [n3, n4, n3] example (only the n4-to-n3 record
disappears) and the mapping-shape conjunct at the counterexample tree. -/
theorem circularRepair_cuts_closing_edge_witness :
    resolveCircularDependencies treeRecCycle [cycleConflict] =
      ⟨⟨some (.listN [n3Rec,
          setConns n4Rec (.listC [⟨some (.s "x"), none, none⟩])]), []⟩,
       [⟨cycleConflict, "Broke circular dependency"⟩], []⟩ ∧
    resolveCircularDependencies treeDictCycle [cycleConflict] =
      ⟨treeDictCycle, [], [cycleConflict]⟩ := by
  constructor
  · exact circularRepair_cuts_closing_edge.1 [n3Rec, n4Rec] [] cycleConflict
      ["n3", "n4", "n3"] rfl (by decide) 1 (by decide) n4Rec (by decide)
      [⟨some (.s "n3"), none, none⟩, ⟨some (.s "x"), none, none⟩] rfl
  · exact circularRepair_cuts_closing_edge.2 [n3Dict, n4Dict] [] cycleConflict
      ["n3", "n4", "n3"] rfl (by decide) 1 (by decide) n4Dict (by decide)
      ("back", .s "n3") [] rfl

/-- A question node whose only connection is a target_node_id record
pointing at y. -/
def aNodeRedun : Node :=
  ⟨some "a", some "decision", none, none, none,
   some (.listC [⟨none, some (.s "y"), none⟩])⟩

/-- The outcome node y. -/
def yNodeRedun : Node :=
  ⟨some "y", some "outcome", none, none, some "APPROVED", none⟩

/-- A two-node tree whose connections use target_node_id records. -/
def treeRedun : Tree :=
  ⟨some (.listN [aNodeRedun, yNodeRedun]), []⟩

/-- A redundant-paths conflict listing both nodes, so that the second half
(the node y) is deleted. -/
def redunConflict : Conflict :=
  ⟨some "redundant_paths",
   some "Multiple paths with identical conditions lead to APPROVED",
   some ["a", "y"], some "medium"⟩

/-- C2 counterexample: the redundant-path repair deletes node y and
reports the conflict resolved, yet the surviving node a still holds a
{condition, target_node_id} record referencing the deleted id y — the
rewrite only inspects the to key, so in that wire shape a surviving
connection keeps referencing a removed node. -/
theorem redundantRepair_dangling_reference_counterexample :
    resolveRedundantPaths treeRedun [redunConflict] =
      ⟨⟨some (.listN [aNodeRedun]), []⟩,
       [⟨redunConflict, "Consolidated redundant paths"⟩], []⟩ ∧
    aNodeRedun.connections = some (.listC [⟨none, some (.s "y"), none⟩]) := by
  constructor
  · rfl
  · rfl

/-- Whether a node's connections pass the redundant-path connection
rewrite without raising: no connections key, an empty mapping, or records
none of whose to values is a nested object. -/
def connRewriteOk (n : Node) : Bool :=
  match n.connections with
  | none => true
  | some (.dictC []) => true
  | some (.dictC (_ :: _)) => false
  | some (.listC recs) =>
      recs.all (fun r =>
        match pyGet r.toKey with
        | .obj _ => false
        | _ => true)

/-- The connection rewrite of _resolve_redundant_paths applied to one
surviving node (its behaviour on the shapes accepted by connRewriteOk). -/
def applyConnFilter (removal : List String) (n : Node) : Node :=
  match n.connections with
  | none => n
  | some (.dictC _) => setConns n (.listC [])
  | some (.listC recs) => setConns n (.listC (recs.filter (fun r =>
      match pyGet r.toKey with
      | .s v => ¬ v ∈ removal
      | _ => true)))

/-- The connection rewrite pass completes on pairwise-distinct indices of
rewrite-safe nodes and rewrites exactly the indexed positions. -/
theorem redunConnPass_ok (removal : List String) :
    ∀ (idxs : List Nat) (o : List Node), idxs.Nodup →
      (∀ i ∈ idxs, ∀ n, o.get? i = some n → connRewriteOk n = true) →
      (redunConnPass removal idxs o).2 = true ∧
      (∀ i ∈ idxs, (redunConnPass removal idxs o).1.get? i =
        (o.get? i).map (applyConnFilter removal)) ∧
      (∀ j, ¬ j ∈ idxs → (redunConnPass removal idxs o).1.get? j = o.get? j) := by
  intro idxs
  induction idxs with
  | nil =>
      intro o _ _
      refine ⟨rfl, ?_, ?_⟩
      · intro i hi; cases hi
      · intro j _; rfl
  | cons i is ih =>
      intro o hnodup hok
      have hinotin : ¬ i ∈ is := (List.nodup_cons.mp hnodup).1
      have hisnodup : is.Nodup := (List.nodup_cons.mp hnodup).2
      cases hoi : o.get? i with
      | none =>
          have hstep : redunConnPass removal (i :: is) o = redunConnPass removal is o := by
            simp only [redunConnPass, hoi]
          obtain ⟨hb, hmem, hout⟩ := ih o hisnodup
            (fun k hk n hn => hok k (List.mem_cons_of_mem _ hk) n hn)
          refine ⟨hstep ▸ hb, ?_, ?_⟩
          · intro k hk
            rcases List.mem_cons.mp hk with h | h
            · subst h
              rw [hstep, hout k hinotin, hoi]
              rfl
            · rw [hstep, hmem k h]
          · intro j hj
            rw [hstep, hout j (fun h => hj (List.mem_cons_of_mem _ h))]
      | some n =>
          have hokn : connRewriteOk n = true := hok i (List.mem_cons_self _ _) n hoi
          -- find the store the tail recursion continues with
          obtain ⟨o2, hstep, h2i, h2k⟩ :
              ∃ o2, redunConnPass removal (i :: is) o = redunConnPass removal is o2 ∧
                o2.get? i = some (applyConnFilter removal n) ∧
                ∀ k, k ≠ i → o2.get? k = o.get? k := by
            have hlt : i < o.length := (List.get?_eq_some.mp hoi).1
            unfold connRewriteOk at hokn
            cases hc : n.connections with
            | none =>
                refine ⟨o, ?_, ?_, fun k _ => rfl⟩
                · simp only [redunConnPass, hoi, hc]
                · rw [hoi]
                  unfold applyConnFilter
                  rw [hc]

            | some c =>
                cases c with
                | dictC es =>
                    cases es with
                    | nil =>
                        refine ⟨o.set i (applyConnFilter removal n), ?_, ?_, ?_⟩
                        · simp only [redunConnPass, hoi, hc]
                          unfold applyConnFilter
                          rw [hc]
                          rfl
                        · rw [List.get?_set_eq_of_lt _ hlt]
                        · intro k hk
                          exact List.get?_set_ne _ _ (Ne.symm hk)
                    | cons e es2 => rw [hc] at hokn; cases hokn
                | listC recs =>
                    rw [hc] at hokn
                    have hnoobj : (recs.any (fun r =>
                        match pyGet r.toKey with
                        | Target.obj _ => true
                        | _ => false)) = false := by
                      rw [List.any_eq_false]
                      intro r hr
                      have := (List.all_eq_true.mp hokn) r hr
                      revert this
                      cases pyGet r.toKey <;> simp
                    refine ⟨o.set i (applyConnFilter removal n), ?_, ?_, ?_⟩
                    · simp only [redunConnPass, hoi, hc, hnoobj]
                      unfold applyConnFilter
                      rw [hc]
                      rfl
                    · rw [List.get?_set_eq_of_lt _ hlt]
                    · intro k hk
                      exact List.get?_set_ne _ _ (Ne.symm hk)
          obtain ⟨hb, hmem, hout⟩ := ih o2 hisnodup
            (fun k hk m hm => by
              have hki : k ≠ i := fun h => hinotin (h ▸ hk)
              rw [h2k k hki] at hm
              exact hok k (List.mem_cons_of_mem _ hk) m hm)
          refine ⟨hstep ▸ hb, ?_, ?_⟩
          · intro k hk
            rcases List.mem_cons.mp hk with h | h
            · subst h
              rw [hstep, hout k hinotin, h2i, hoi]
              rfl
            · rw [hstep, hmem k h]
              have hki : k ≠ i := fun hkeq => hinotin (hkeq ▸ h)
              rw [h2k k hki]
          · intro j hj
            have hji : j ≠ i := fun h => hj (h ▸ List.mem_cons_self _ _)
            rw [hstep, hout j (fun h => hj (List.mem_cons_of_mem _ h)), h2k j hji]

/-- The connection rewrite never touches a node's id. -/
theorem applyConnFilter_id (removal : List String) (n : Node) :
    (applyConnFilter removal n).id = n.id := by
  unfold applyConnFilter
  cases n.connections with
  | none => rfl
  | some c => cases c <;> rfl

/-- Any record list surviving the connection rewrite is free of to keys
into the removal set. -/
theorem applyConnFilter_conns (removal : List String) (n : Node)
    (recs : List ConnRec)
    (h : (applyConnFilter removal n).connections = some (.listC recs)) :
    ∀ r ∈ recs, ∀ s ∈ removal, pyGet r.toKey ≠ Target.s s := by
  unfold applyConnFilter at h
  cases hc : n.connections with
  | none =>
      rw [hc] at h
      rw [hc] at h
      cases h
  | some c =>
      cases c with
      | dictC es =>
          rw [hc] at h
          have h2 : some (Connections.listC ([] : List ConnRec)) =
              some (Connections.listC recs) := h
          injection h2 with h3
          injection h3 with h4
          subst h4
          intro r hr
          cases hr
      | listC recs0 =>
          rw [hc] at h
          have h2 : some (Connections.listC (recs0.filter (fun r =>
              match pyGet r.toKey with
              | Target.s v => ¬ v ∈ removal
              | _ => true))) = some (Connections.listC recs) := h
          injection h2 with h3
          injection h3 with h4
          subst h4
          intro r hr s hs habs
          have hpred := (List.mem_filter.mp hr).2
          rw [habs] at hpred
          simp at hpred
          exact hpred hs

/-- A range filter misses at least one index when its predicate fails
somewhere below the bound. -/
theorem filter_range_length_lt (len : Nat) (p : Nat → Bool) (j : Nat)
    (hj : j < len) (hpj : p j = false) :
    ((List.range len).filter p).length < len := by
  have hle := List.length_filter_le p (List.range len)
  rw [List.length_range] at hle
  rcases lt_or_eq_of_le hle with h | h
  · exact h
  · exfalso
    have hall := List.filter_length_eq_length.mp (by rw [h, List.length_range])
    have hj2 := hall j (List.mem_range.mpr hj)
    rw [hpj] at hj2
    cases hj2

/-- C2 (amended): on a list-shaped tree whose nodes all survive the
connection rewrite (no connections key, an empty mapping, or records with
string or absent to values), a redundant-paths conflict listing more than
one id, at least one of whose second-half ids names a present node, is
reported resolved, the node count strictly decreases, and no surviving
node keeps an id or a record to key inside the removed-id set. References
held under the target_node_id key (the other record field) and trees in
the dict shape are outside this guarantee, as the counterexample shows. -/
theorem redundantRepair_shrinks_on_to_records :
    ∀ (ns : List Node) (extra : List (String × String)) (c : Conflict)
      (cyc : List String), c.nodes = some cyc → 1 < cyc.length →
      (∀ n ∈ ns, connRewriteOk n = true) →
      (∃ n ∈ ns, ∃ s, n.id = some s ∧ s ∈ cyc.drop (cyc.length / 2)) →
      ∃ ns2, resolveRedundantPaths ⟨some (.listN ns), extra⟩ [c] =
        ⟨⟨some (.listN ns2), extra⟩,
         [⟨c, "Consolidated redundant paths"⟩], []⟩ ∧
        ns2.length < ns.length ∧
        (∀ n ∈ ns2, (∀ s, n.id = some s → ¬ s ∈ cyc.drop (cyc.length / 2)) ∧
          (∀ recs, n.connections = some (.listC recs) →
            ∀ r ∈ recs, ∀ s ∈ cyc.drop (cyc.length / 2),
              pyGet r.toKey ≠ Target.s s)) := by
  intro ns extra c cyc hc h2 hok hpres
  unfold resolveRedundantPaths
  simp only [List.foldl]
  unfold redunStep
  simp only [hc, Option.getD_some]
  rw [if_pos h2]
  have hnodup : ((List.range ns.length).filter (fun i =>
      match ns.get? i with
      | some n =>
          match n.id with
          | some s => ¬ s ∈ cyc.drop (cyc.length / 2)
          | none => true
      | none => false)).Nodup := (List.nodup_range _).filter _
  have hok2 : ∀ i ∈ (List.range ns.length).filter (fun i =>
      match ns.get? i with
      | some n =>
          match n.id with
          | some s => ¬ s ∈ cyc.drop (cyc.length / 2)
          | none => true
      | none => false), ∀ n, ns.get? i = some n → connRewriteOk n = true :=
    fun i _ n hn => hok n (List.get?_mem hn)
  obtain ⟨hb, hmem, -⟩ := redunConnPass_ok (cyc.drop (cyc.length / 2)) _ ns
    hnodup hok2
  rw [if_pos hb]
  refine ⟨_, rfl, ?_, ?_⟩
  · -- strict decrease of the node count
    obtain ⟨n, hn, s, hid, hs⟩ := hpres
    obtain ⟨j, hj⟩ := List.get?_of_mem hn
    have hjlt : j < ns.length := (List.get?_eq_some.mp hj).1
    refine lt_of_le_of_lt (List.length_filterMap_le _ _)
      (filter_range_length_lt _ _ j hjlt ?_)
    simp only [hj, hid]
    simp [hs]
  · intro n hn
    obtain ⟨i, hi, hgi⟩ := List.mem_filterMap.mp hn
    have hchar := hmem i hi
    rw [hgi] at hchar
    obtain ⟨n0, hn0, hmap⟩ : ∃ n0, ns.get? i = some n0 ∧
        applyConnFilter (cyc.drop (cyc.length / 2)) n0 = n := by
      cases hg : ns.get? i with
      | none => rw [hg] at hchar; cases hchar
      | some n0 =>
          rw [hg] at hchar
          exact ⟨n0, rfl, by simpa using hchar.symm⟩
    have hpi := (List.mem_filter.mp hi).2
    simp only [hn0] at hpi
    constructor
    · intro s hids
      have hids0 : n0.id = some s := by
        rw [← hmap, applyConnFilter_id] at hids
        exact hids
      simp only [hids0] at hpi
      simpa using hpi
    · intro recs hrecs
      rw [← hmap] at hrecs
      exact applyConnFilter_conns _ _ _ hrecs

/-- A question node whose only connection is a to record pointing at y. -/
def aToNode : Node :=
  ⟨some "a", some "decision", none, none, none,
   some (.listC [⟨some (.s "y"), none, none⟩])⟩

/-- Witness for redundantRepair_shrinks_on_to_records at the two-node tree
[a, y] with a to record a-to-y and the conflict listing both ids. -/
theorem redundantRepair_shrinks_on_to_records_witness :
    ∃ ns2, resolveRedundantPaths ⟨some (.listN [aToNode, yNodeRedun]), []⟩
        [redunConflict] =
      ⟨⟨some (.listN ns2), []⟩,
       [⟨redunConflict, "Consolidated redundant paths"⟩], []⟩ ∧
      ns2.length < [aToNode, yNodeRedun].length ∧
      (∀ n ∈ ns2,
        (∀ s, n.id = some s →
          ¬ s ∈ (["a", "y"] : List String).drop
            ((["a", "y"] : List String).length / 2)) ∧
        (∀ recs, n.connections = some (.listC recs) →
          ∀ r ∈ recs, ∀ s ∈ (["a", "y"] : List String).drop
            ((["a", "y"] : List String).length / 2),
            pyGet r.toKey ≠ Target.s s)) :=
  redundantRepair_shrinks_on_to_records [aToNode, yNodeRedun] [] redunConflict
    ["a", "y"] rfl (by decide) (by decide)
    ⟨yNodeRedun, by decide, "y", rfl, by decide⟩

/-- Whether one node carries no nested-object connection target (the
inputs on which the validator scan raises TypeError). -/
def nodeObjFree (n : Node) : Bool :=
  match n.connections.getD (.dictC []) with
  | .dictC conns =>
      conns.all (fun q =>
        match q.2 with
        | .obj _ => false
        | _ => true)
  | .listC recs =>
      recs.all (fun r =>
        match pyGet r.targetNodeId with
        | .obj _ => false
        | _ => true)

/-- Whether a node mapping is free of nested-object connection targets. -/
def entriesObjFree (entries : List (String × Node)) : Bool :=
  entries.all (fun p => nodeObjFree p.2)

/-- The issues the scan emits for one mapping-shape connection target. -/
def dictConnIssue (keys : List String) (nid : String) (t : Target) :
    List String :=
  if t = Target.s nid then [selfRefMsg nid]
  else
    match t with
    | .obj _ => []
    | t2 =>
        if keys.contains (targetText t2) then []
        else [danglingMsg nid (targetText t2)]

/-- The issues the scan emits for one record-shape connection target. -/
def recConnIssue (keys : List String) (nid : String) (t : Target) :
    List String :=
  if t = Target.s nid then [selfRefMsg nid]
  else if t.truthy then
    match t with
    | .obj _ => []
    | t2 =>
        if keys.contains (targetText t2) then []
        else [danglingMsg nid (targetText t2)]
  else []

/-- The issues the scan emits while visiting one node entry. -/
def entryIssues (keys : List String) (p : String × Node) : List String :=
  match (p.2).connections.getD (.dictC []) with
  | .dictC conns => conns.flatMap (fun q => dictConnIssue keys p.1 q.2)
  | .listC recs =>
      recs.flatMap (fun r => recConnIssue keys p.1 (pyGet r.targetNodeId))

/-- One object-free step of the mapping-shape inner scan appends exactly
its dictConnIssue strings. -/
theorem scanConnsDict_cons (keys : List String) (nid : String)
    (q : String × Target) (qs : List (String × Target))
    (issues : List String)
    (hq : (match q.2 with
      | Target.obj _ => false
      | _ => true) = true) :
    scanConnsDict keys nid (q :: qs) issues =
      scanConnsDict keys nid qs (issues ++ dictConnIssue keys nid q.2) := by
  unfold scanConnsDict
  rw [List.foldl_cons]
  congr 1
  cases ht : q.2 with
  | obj o => rw [ht] at hq; cases hq
  | s v =>
      by_cases hself : Target.s v = Target.s nid
      · simp [dictConnIssue, ht, hself]
      · by_cases hcont : targetText (Target.s v) ∈ keys
        · simp [dictConnIssue, ht, hself, hcont]
        · simp [dictConnIssue, ht, hself, hcont]
  | noneV =>
      by_cases hcont : targetText Target.noneV ∈ keys
      · simp [dictConnIssue, ht, hcont]
      · simp [dictConnIssue, ht, hcont]

/-- Characterization of the mapping-shape inner scan on object-free
connection lists. -/
theorem scanConnsDict_objFree (keys : List String) (nid : String) :
    ∀ (conns : List (String × Target)) (issues : List String),
      (conns.all (fun q =>
        match q.2 with
        | Target.obj _ => false
        | _ => true)) = true →
      scanConnsDict keys nid conns issues =
        .ok (issues ++ conns.flatMap (fun q => dictConnIssue keys nid q.2)) := by
  intro conns
  induction conns with
  | nil =>
      intro issues _
      simp [scanConnsDict]
  | cons q qs ih =>
      intro issues hfree
      have hq := (List.all_eq_true.mp hfree) q (List.mem_cons_self _ _)
      have hqs : (qs.all (fun q =>
          match q.2 with
          | Target.obj _ => false
          | _ => true)) = true := by
        rw [List.all_eq_true]
        intro x hx
        exact (List.all_eq_true.mp hfree) x (List.mem_cons_of_mem _ hx)
      rw [scanConnsDict_cons keys nid q qs issues hq, ih _ hqs,
        List.flatMap_cons]
      simp

/-- One object-free step of the record-shape inner scan appends exactly
its recConnIssue strings. -/
theorem scanConnsRec_cons (keys : List String) (nid : String)
    (r : ConnRec) (rs : List ConnRec) (issues : List String)
    (hr : (match pyGet r.targetNodeId with
      | Target.obj _ => false
      | _ => true) = true) :
    scanConnsRec keys nid (r :: rs) issues =
      scanConnsRec keys nid rs
        (issues ++ recConnIssue keys nid (pyGet r.targetNodeId)) := by
  unfold scanConnsRec
  rw [List.foldl_cons]
  congr 1
  cases ht : pyGet r.targetNodeId with
  | obj o => rw [ht] at hr; cases hr
  | s v =>
      by_cases hself : Target.s v = Target.s nid
      · simp [recConnIssue, ht, hself]
      · by_cases htr : (Target.s v).truthy = true
        · by_cases hcont : targetText (Target.s v) ∈ keys
          · simp [recConnIssue, ht, hself, htr, hcont]
          · simp [recConnIssue, ht, hself, htr, hcont]
        · simp [recConnIssue, ht, hself, htr]
  | noneV =>
      simp [recConnIssue, ht, Target.truthy]

/-- Characterization of the record-shape inner scan on object-free
connection lists. -/
theorem scanConnsRec_objFree (keys : List String) (nid : String) :
    ∀ (recs : List ConnRec) (issues : List String),
      (recs.all (fun r =>
        match pyGet r.targetNodeId with
        | Target.obj _ => false
        | _ => true)) = true →
      scanConnsRec keys nid recs issues =
        .ok (issues ++ recs.flatMap
          (fun r => recConnIssue keys nid (pyGet r.targetNodeId))) := by
  intro recs
  induction recs with
  | nil =>
      intro issues _
      simp [scanConnsRec]
  | cons r rs ih =>
      intro issues hfree
      have hr := (List.all_eq_true.mp hfree) r (List.mem_cons_self _ _)
      have hrs : (rs.all (fun r =>
          match pyGet r.targetNodeId with
          | Target.obj _ => false
          | _ => true)) = true := by
        rw [List.all_eq_true]
        intro x hx
        exact (List.all_eq_true.mp hfree) x (List.mem_cons_of_mem _ hx)
      rw [scanConnsRec_cons keys nid r rs issues hr, ih _ hrs,
        List.flatMap_cons]
      simp

/-- On object-free inputs the referential scan never raises and produces
exactly the per-entry issues in visit order. -/
theorem validateScan_objFree (entries : List (String × Node))
    (hfree : entriesObjFree entries = true) :
    validateScan entries =
      .ok (entries.flatMap (entryIssues (entries.map (fun p => p.1)))) := by
  unfold validateScan
  have main : ∀ (l : List (String × Node)) (iss0 : List String),
      (∀ p ∈ l, nodeObjFree p.2 = true) →
      l.foldl
        (fun (acc : Except Unit (List String)) p =>
          match acc with
          | .error e => .error e
          | .ok issues => scanEntry (entries.map (fun r => r.1)) p issues)
        (.ok iss0) =
      .ok (iss0 ++ l.flatMap (entryIssues (entries.map (fun p => p.1)))) := by
    intro l
    induction l with
    | nil =>
        intro iss0 _
        simp
    | cons p ps ih =>
        intro iss0 hfree2
        have hp : nodeObjFree p.2 = true := hfree2 p (List.mem_cons_self _ _)
        have hstep : scanEntry (entries.map (fun r => r.1)) p iss0 =
            .ok (iss0 ++ entryIssues (entries.map (fun r => r.1)) p) := by
          unfold nodeObjFree at hp
          unfold scanEntry entryIssues
          cases hcn : (p.2).connections.getD (.dictC []) with
          | dictC conns =>
              rw [hcn] at hp
              exact scanConnsDict_objFree _ _ conns iss0 hp
          | listC recs =>
              rw [hcn] at hp
              exact scanConnsRec_objFree _ _ recs iss0 hp
        rw [List.foldl_cons]
        simp only [hstep]
        rw [ih _ (fun x hx => hfree2 x (List.mem_cons_of_mem _ hx))]
        simp
  exact main entries [] (fun p hp => (List.all_eq_true.mp hfree) p hp)

/-- A node whose only connection target is a nested object. -/
def objTargetNode : Node :=
  ⟨some "a", some "decision", none, none, none,
   some (.dictC [("yes", .obj (some "b"))])⟩

/-- C4 counterexample: a nodes mapping whose single connection target is a
nested object instead of a plain id string makes validate_tree_structure
raise (the membership test target_id not in nodes hashes the dict),
instead of reporting an issue string. -/
theorem validate_raises_on_object_target_counterexample :
    validate_tree_structure (.dictN [("a", objTargetNode)]) = .error () := by
  rfl

/-- The raw mapping-shape connection targets of a node ([] for the record
shape). -/
def dictTargets (n : Node) : List Target :=
  match n.connections.getD (.dictC []) with
  | .dictC conns => conns.map (fun q => q.2)
  | .listC _ => []

/-- The record-shape connection targets of a node as read through
conn.get, [] for the mapping shape. -/
def recTargets (n : Node) : List Target :=
  match n.connections.getD (.dictC []) with
  | .dictC _ => []
  | .listC recs => recs.map (fun r => pyGet r.targetNodeId)

/-- A self-referencing edge in either wire shape puts the self-reference
issue among the entry's scan issues. -/
theorem entryIssues_self (keys : List String) (nid : String) (n : Node)
    (h : Target.s nid ∈ dictTargets n ∨ Target.s nid ∈ recTargets n) :
    selfRefMsg nid ∈ entryIssues keys (nid, n) := by
  unfold dictTargets recTargets at h
  unfold entryIssues
  cases hcn : n.connections.getD (.dictC []) with
  | dictC conns =>
      rw [hcn] at h
      rcases h with h | h
      · obtain ⟨q, hq, ht⟩ := List.mem_map.mp h
        refine List.mem_flatMap.mpr ⟨q, hq, ?_⟩
        unfold dictConnIssue
        rw [ht, if_pos rfl]
        exact List.mem_singleton.mpr rfl
      · cases h
  | listC recs =>
      rw [hcn] at h
      rcases h with h | h
      · cases h
      · obtain ⟨r, hr, ht⟩ := List.mem_map.mp h
        refine List.mem_flatMap.mpr ⟨r, hr, ?_⟩
        unfold recConnIssue
        rw [ht, if_pos rfl]
        exact List.mem_singleton.mpr rfl

/-- A dangling string target in the mapping shape puts the dangling issue
among the entry's scan issues. -/
theorem entryIssues_dangling_dict (keys : List String) (nid : String)
    (n : Node) (w : String) (h : Target.s w ∈ dictTargets n) (hw : w ≠ nid)
    (hk : ¬ w ∈ keys) : danglingMsg nid w ∈ entryIssues keys (nid, n) := by
  unfold dictTargets at h
  unfold entryIssues
  cases hcn : n.connections.getD (.dictC []) with
  | dictC conns =>
      rw [hcn] at h
      obtain ⟨q, hq, ht⟩ := List.mem_map.mp h
      refine List.mem_flatMap.mpr ⟨q, hq, ?_⟩
      unfold dictConnIssue
      rw [ht]
      simp [targetText, hw, hk]
  | listC recs =>
      rw [hcn] at h
      cases h

/-- A dangling non-empty string target in the record shape puts the
dangling issue among the entry's scan issues. -/
theorem entryIssues_dangling_rec (keys : List String) (nid : String)
    (n : Node) (w : String) (h : Target.s w ∈ recTargets n) (hw : w ≠ nid)
    (hw2 : w ≠ "") (hk : ¬ w ∈ keys) :
    danglingMsg nid w ∈ entryIssues keys (nid, n) := by
  unfold recTargets at h
  unfold entryIssues
  cases hcn : n.connections.getD (.dictC []) with
  | dictC conns =>
      rw [hcn] at h
      cases h
  | listC recs =>
      rw [hcn] at h
      obtain ⟨r, hr, ht⟩ := List.mem_map.mp h
      refine List.mem_flatMap.mpr ⟨r, hr, ?_⟩
      unfold recConnIssue
      rw [ht]
      simp [targetText, Target.truthy, hw, hw2, hk]

/-- C4 (amended): on every nodes mapping free of nested-object connection
targets the Structural Validator returns without raising, is_valid is
true exactly when the issues list is empty, every self-referencing edge
is reported, and every dangling string target is reported (in the record
shape the source only checks truthy targets, hence the non-empty-string
proviso there). A nested-object target, however, raises TypeError, as the
counterexample shows. -/
theorem validate_reports_on_object_free_input :
    ∀ (entries : List (String × Node)), entriesObjFree entries = true →
      (∃ r, validate_tree_structure (.dictN entries) = .ok r) ∧
      (∀ (v : Bool) (issues : List String),
        validate_tree_structure (.dictN entries) = .ok (v, issues) →
        (v = true ↔ issues = []) ∧
        (∀ nid n, (nid, n) ∈ entries →
          ((Target.s nid ∈ dictTargets n ∨ Target.s nid ∈ recTargets n) →
            selfRefMsg nid ∈ issues) ∧
          (∀ w, Target.s w ∈ dictTargets n → w ≠ nid →
            ¬ w ∈ entries.map (fun p => p.1) → danglingMsg nid w ∈ issues) ∧
          (∀ w, Target.s w ∈ recTargets n → w ≠ nid → w ≠ "" →
            ¬ w ∈ entries.map (fun p => p.1) → danglingMsg nid w ∈ issues))) := by
  intro entries hfree
  have hscan := validateScan_objFree entries hfree
  have heq : validate_tree_structure (.dictN entries) =
      .ok ((if entries.isEmpty then
          entries.flatMap (entryIssues (entries.map (fun p => p.1)))
        else entries.flatMap (entryIssues (entries.map (fun p => p.1))) ++
          validateCycleIssues entries).isEmpty,
        if entries.isEmpty then
          entries.flatMap (entryIssues (entries.map (fun p => p.1)))
        else entries.flatMap (entryIssues (entries.map (fun p => p.1))) ++
          validateCycleIssues entries) := by
    show (match validateScan entries with
      | Except.error e => Except.error e
      | Except.ok issues1 =>
          let issues2 := if entries.isEmpty then issues1
            else issues1 ++ validateCycleIssues entries
          Except.ok (issues2.isEmpty, issues2)) = _
    rw [hscan]
  refine ⟨⟨_, heq⟩, ?_⟩
  intro v issues hv
  rw [heq] at hv
  injection hv with hv
  have hvv := congrArg Prod.fst hv
  have hii := congrArg Prod.snd hv
  simp only [] at hvv hii
  subst hvv
  subst hii
  have hup : ∀ m, m ∈ entries.flatMap (entryIssues (entries.map (fun p => p.1))) →
      m ∈ (if entries.isEmpty then
          entries.flatMap (entryIssues (entries.map (fun p => p.1)))
        else entries.flatMap (entryIssues (entries.map (fun p => p.1))) ++
          validateCycleIssues entries) := by
    intro m hm
    by_cases he : entries.isEmpty
    · rw [if_pos he]
      exact hm
    · rw [if_neg he]
      exact List.mem_append_left _ hm
  constructor
  · exact List.isEmpty_iff
  · intro nid n hmem
    refine ⟨?_, ?_, ?_⟩
    · intro h
      exact hup _ (List.mem_flatMap.mpr ⟨(nid, n), hmem, entryIssues_self _ _ _ h⟩)
    · intro w hw hwn hwk
      exact hup _ (List.mem_flatMap.mpr
        ⟨(nid, n), hmem, entryIssues_dangling_dict _ _ _ _ hw hwn hwk⟩)
    · intro w hw hwn hwe hwk
      exact hup _ (List.mem_flatMap.mpr
        ⟨(nid, n), hmem, entryIssues_dangling_rec _ _ _ _ hw hwn hwe hwk⟩)

/-- A node with one dangling target (zz) and one self-referencing edge. -/
def dangNode : Node :=
  ⟨some "a", some "decision", none, none, none,
   some (.dictC [("yes", .s "zz"), ("no", .s "a")])⟩

/-- Witness for validate_reports_on_object_free_input: the object-free
one-node mapping with a dangling edge and a self-loop is validated
without raising and both defects appear among the issues. -/
theorem validate_reports_on_object_free_input_witness :
    (∃ r, validate_tree_structure (.dictN [("a", dangNode)]) = .ok r) ∧
    (∀ (v : Bool) (issues : List String),
      validate_tree_structure (.dictN [("a", dangNode)]) = .ok (v, issues) →
      selfRefMsg "a" ∈ issues ∧ danglingMsg "a" "zz" ∈ issues) := by
  obtain ⟨h1, h2⟩ := validate_reports_on_object_free_input
    [("a", dangNode)] (by decide)
  refine ⟨h1, ?_⟩
  intro v issues hv
  obtain ⟨-, h3⟩ := h2 v issues hv
  obtain ⟨hself, hdang, -⟩ := h3 "a" dangNode (by decide)
  exact ⟨hself (Or.inl (by decide)),
    hdang "zz" (by decide) (by decide) (by decide)⟩

/-- The conflict record emitted for an overlapping pair whose ids are
present. -/
def overlapRecord (n1 n2 : Node) : Conflict :=
  ⟨some "overlapping_conditions",
   some (let c1 := n1.condition.getD ""
         let c2 := n2.condition.getD ""
         s!"Conditions may overlap: \"{c1}\" and \"{c2}\""),
   some [n1.id.getD "", n2.id.getD ""], some "low"⟩

/-- With both ids present the pairwise conflict construction succeeds. -/
theorem overlapConflict_ok (n1 n2 : Node) (h1 : n1.id ≠ none)
    (h2 : n2.id ≠ none) : overlapConflict n1 n2 = .ok (overlapRecord n1 n2) := by
  unfold overlapConflict overlapRecord
  cases hi1 : n1.id with
  | none => exact absurd hi1 h1
  | some i1 =>
      cases hi2 : n2.id with
      | none => exact absurd hi2 h2
      | some i2 => rfl

/-- Characterization of the inner overlap loop when ids are present. -/
theorem overlapInner_ok (n1 : Node) (h1 : n1.id ≠ none) :
    ∀ (others : List Node) (cs : List Conflict),
      (∀ n2 ∈ others, n2.id ≠ none) →
      overlapInner n1 others cs =
        .ok (cs ++ (others.filter (fun n2 =>
          conditions_overlap (n1.condition.getD "") (n2.condition.getD ""))).map
          (overlapRecord n1)) := by
  intro others
  induction others with
  | nil =>
      intro cs _
      simp [overlapInner]
  | cons n2 rest ih =>
      intro cs hids
      have hn2 : n2.id ≠ none := hids n2 (List.mem_cons_self _ _)
      have hrest : ∀ x ∈ rest, x.id ≠ none :=
        fun x hx => hids x (List.mem_cons_of_mem _ hx)
      have hcons : overlapInner n1 (n2 :: rest) cs =
          overlapInner n1 rest
            (if conditions_overlap (n1.condition.getD "")
                (n2.condition.getD "") then cs ++ [overlapRecord n1 n2]
             else cs) := by
        unfold overlapInner
        rw [List.foldl_cons]
        congr 1
        by_cases hov : conditions_overlap (n1.condition.getD "")
            (n2.condition.getD "") = true
        · simp [hov, overlapConflict_ok n1 n2 h1 hn2]
        · simp [hov]
      rw [hcons, ih _ hrest]
      by_cases hov : conditions_overlap (n1.condition.getD "")
          (n2.condition.getD "") = true
      · simp [hov]
      · simp [hov]

/-- Characterization of the whole overlap detector fold when the decision
nodes carry ids. -/
theorem overlapOuter_ok (dns : List Node)
    (hids : ∀ n ∈ dns, n.id ≠ none) :
    ∀ (idxs : List Nat) (cs0 : List Conflict),
      idxs.foldl
        (fun (acc : Except Unit (List Conflict)) i =>
          match acc with
          | .error e => .error e
          | .ok cs =>
              match dns.get? i with
              | none => .ok cs
              | some n1 => overlapInner n1 (dns.drop (i + 1)) cs)
        (.ok cs0) =
      .ok (cs0 ++ idxs.flatMap (fun i =>
        match dns.get? i with
        | none => []
        | some n1 => ((dns.drop (i + 1)).filter (fun n2 =>
            conditions_overlap (n1.condition.getD "")
              (n2.condition.getD ""))).map (overlapRecord n1))) := by
  intro idxs
  induction idxs with
  | nil =>
      intro cs0
      simp
  | cons i rest ih =>
      intro cs0
      rw [List.foldl_cons, List.flatMap_cons]
      cases hg : dns.get? i with
      | none =>
          simp only [hg]
          rw [ih cs0]
          simp
      | some n1 =>
          have hn1 : n1.id ≠ none := hids n1 (List.get?_mem hg)
          have hdrop : ∀ n2 ∈ dns.drop (i + 1), n2.id ≠ none :=
            fun n2 h => hids n2 (List.mem_of_mem_drop h)
          simp only [hg]
          rw [overlapInner_ok n1 hn1 _ cs0 hdrop, ih _]
          simp

/-- C9: the overlap test flags two condition texts exactly when, after
lowercasing, whitespace-splitting and stopword removal, the two word sets
share at least two words; and on any tree whose decision nodes carry ids
the detector emits exactly one conflict per flagged (earlier, later)
position pair, each of kind overlapping_conditions, severity low, listing
exactly the two nodes. -/
theorem overlappingDetector_characterization :
    (∀ c1 c2 : String, conditions_overlap c1 c2 = true ↔
      2 ≤ ((wordSet c1 \ commonWords) ∩ (wordSet c2 \ commonWords)).card) ∧
    (∀ (tree : Tree),
      (∀ n ∈ (treeNodesList tree).filter (fun n => n.type = some "decision"),
        n.id ≠ none) →
      ∃ l, detectOverlappingConditions tree = .ok l ∧
        ∀ c, c ∈ l ↔ ∃ i j n1 n2, i < j ∧
          ((treeNodesList tree).filter
            (fun n => n.type = some "decision")).get? i = some n1 ∧
          ((treeNodesList tree).filter
            (fun n => n.type = some "decision")).get? j = some n2 ∧
          conditions_overlap (n1.condition.getD "")
            (n2.condition.getD "") = true ∧
          c = overlapRecord n1 n2) := by
  constructor
  · intro c1 c2
    have hsets : (wordSet c1 ∩ wordSet c2) \ commonWords =
        (wordSet c1 \ commonWords) ∩ (wordSet c2 \ commonWords) := by
      ext x
      simp only [Finset.mem_inter, Finset.mem_sdiff]
      tauto
    unfold conditions_overlap
    rw [hsets]
    simp
  · intro tree hids
    have houter := overlapOuter_ok
      ((treeNodesList tree).filter (fun n => n.type = some "decision")) hids
      (List.range ((treeNodesList tree).filter
        (fun n => n.type = some "decision")).length) []
    have hdet : detectOverlappingConditions tree = _ := houter
    refine ⟨_, hdet, ?_⟩
    · intro c
      rw [List.nil_append]
      constructor
      · intro hc
        obtain ⟨i, hi, hf⟩ := List.mem_flatMap.mp hc
        cases hg : ((treeNodesList tree).filter
            (fun n => n.type = some "decision")).get? i with
        | none => rw [hg] at hf; cases hf
        | some n1 =>
            rw [hg] at hf
            obtain ⟨n2, hn2, heq⟩ := List.mem_map.mp hf
            have hov := (List.mem_filter.mp hn2).2
            obtain ⟨k, hk⟩ := List.mem_iff_get?.mp (List.mem_filter.mp hn2).1
            rw [List.get?_drop] at hk
            exact ⟨i, i + 1 + k, n1, n2, by omega, hg, hk, hov, heq.symm⟩
      · rintro ⟨i, j, n1, n2, hij, hg1, hg2, hov, hc⟩
        have hilt : i < ((treeNodesList tree).filter
            (fun n => n.type = some "decision")).length := by
          have hjlt := (List.get?_eq_some.mp hg2).1
          omega
        refine List.mem_flatMap.mpr ⟨i, List.mem_range.mpr hilt, ?_⟩
        rw [hg1]
        refine List.mem_map.mpr ⟨n2, ?_, hc.symm⟩
        refine List.mem_filter.mpr ⟨?_, hov⟩
        refine List.mem_iff_get?.mpr ⟨j - (i + 1), ?_⟩
        rw [List.get?_drop]
        have : i + 1 + (j - (i + 1)) = j := by omega
        rw [this]
        exact hg2

/-- A question node about diabetes treatment. -/
def qOv1 : Node :=
  ⟨some "qa", some "decision", some "diabetes treatment required", none,
   none, none⟩

/-- A second question node sharing two significant words with the first. -/
def qOv2 : Node :=
  ⟨some "qb", some "decision", some "ongoing diabetes treatment", none,
   none, none⟩

/-- A tree holding the two overlapping question nodes. -/
def treeOverlap : Tree :=
  ⟨some (.listN [qOv1, qOv2]), []⟩

/-- Witness for overlappingDetector_characterization: the lexical test at
two concrete condition texts, and the detector emitting the conflict for
the concrete overlapping pair. -/
theorem overlappingDetector_characterization_witness :
    (conditions_overlap "diabetes treatment required"
        "ongoing diabetes treatment" = true ↔
      2 ≤ ((wordSet "diabetes treatment required" \ commonWords) ∩
        (wordSet "ongoing diabetes treatment" \ commonWords)).card) ∧
    ∃ l, detectOverlappingConditions treeOverlap = .ok l ∧
      overlapRecord qOv1 qOv2 ∈ l := by
  refine ⟨overlappingDetector_characterization.1 _ _, ?_⟩
  obtain ⟨l, hdet, hiff⟩ := overlappingDetector_characterization.2 treeOverlap
    (by decide)
  exact ⟨l, hdet, (hiff _).mpr
    ⟨0, 1, qOv1, qOv2, by decide, by decide, by decide, by decide, rfl⟩⟩

/-- C7: in a graph holding two distinct question nodes with the same
condition text, the first connected to an outcome labelled labA and the
second to an outcome labelled labB with labA different from labB, the
contradictory-paths detector emits exactly one conflict: kind
contradictory_paths, severity high, listing only the newer (second)
node. The question nodes carry the source's decision type string, the
spec's name for them being question nodes. -/
theorem contradictoryDetector_scenario
    (q1 o1 q2 o2 cond labA labB lbl1 lbl2 : String)
    (hone : o1 ≠ q1) (h21 : o2 ≠ q1) (h22 : o2 ≠ o1) (h23 : o2 ≠ q2)
    (hlab : labA ≠ labB) :
    detectContradictoryPaths
      ⟨some (.dictN [
        (q1, ⟨some q1, some "decision", some cond, none, none,
          some (.dictC [(lbl1, .s o1)])⟩),
        (o1, ⟨some o1, some "outcome", none, none, some labA, none⟩),
        (q2, ⟨some q2, some "decision", some cond, none, none,
          some (.dictC [(lbl2, .s o2)])⟩),
        (o2, ⟨some o2, some "outcome", none, none, some labB, none⟩)]), []⟩ =
      .ok [⟨some "contradictory_paths",
        some s!"Condition \"{cond}\" leads to different outcomes",
        some [q2], some "high"⟩] := by
  have hsets : ({labA} : Finset String) ≠ {labB} := by
    simpa using hlab
  simp [detectContradictoryPaths, treeNodesList, outcomesOf, findNodeById,
    assocFind, emptyNode, List.find?, hone, h21, h22, h23, hsets,
    Ne.symm hone, Ne.symm h21, Ne.symm h22, Ne.symm h23]

/-- Witness for contradictoryDetector_scenario at the spec's example: the
condition text Has diabetes reaching APPROVED in one node and DENIED in
the other yields exactly one high-severity conflict listing q2. -/
theorem contradictoryDetector_scenario_witness :
    detectContradictoryPaths
      ⟨some (.dictN [
        ("q1", ⟨some "q1", some "decision", some "Has diabetes", none, none,
          some (.dictC [("yes", .s "o1")])⟩),
        ("o1", ⟨some "o1", some "outcome", none, none, some "APPROVED", none⟩),
        ("q2", ⟨some "q2", some "decision", some "Has diabetes", none, none,
          some (.dictC [("yes", .s "o2")])⟩),
        ("o2", ⟨some "o2", some "outcome", none, none, some "DENIED", none⟩)]),
       []⟩ =
      .ok [⟨some "contradictory_paths",
        some "Condition \"Has diabetes\" leads to different outcomes",
        some ["q2"], some "high"⟩] :=
  contradictoryDetector_scenario "q1" "o1" "q2" "o2" "Has diabetes"
    "APPROVED" "DENIED" "yes" "yes" (by decide) (by decide) (by decide)
    (by decide) (by decide)

/-- Geometric visit budget: geomSum b k bounds the nodes processed by a
depth-bounded walk of k remaining levels with branching at most b. -/
def geomSum (b : Nat) : Nat → Nat
  | 0 => 0
  | k + 1 => 1 + b * geomSum b k

/-- Past the depth bound the traversal is a no-op on any fuel. -/
theorem traverseRec_depth_guard (cfg : TraversalConfig) (ch : Node → List Node)
    (fuel : Nat) (node : Node) (depth : Nat) (st : TravState)
    (hd : cfg.maxDepth < depth) :
    traverseRec cfg ch fuel node depth st = .ok (st, 0) := by
  cases fuel with
  | zero => rfl
  | succ f =>
      unfold traverseRec
      rw [if_pos hd]

/-- The number of processed nodes is bounded by the geometric budget of
the remaining depth, for any branching bound of the children callback. -/
theorem traverseRec_visits_le (cfg : TraversalConfig) (ch : Node → List Node)
    (b : Nat) (hb : ∀ m, (ch m).length ≤ b) :
    ∀ (fuel : Nat) (node : Node) (depth : Nat) (st : TravState)
      (st' : TravState) (n : Nat),
      traverseRec cfg ch fuel node depth st = .ok (st', n) →
      n ≤ geomSum b (cfg.maxDepth + 1 - depth) := by
  intro fuel
  induction fuel with
  | zero =>
      intro node depth st st' n h
      injection h with h
      have hn : n = 0 := (congrArg Prod.snd h).symm
      omega
  | succ f ih =>
      intro node depth st st' n h
      unfold traverseRec at h
      by_cases hd : cfg.maxDepth < depth
      · rw [if_pos hd] at h
        injection h with h
        have hn : n = 0 := (congrArg Prod.snd h).symm
        omega
      · rw [if_neg hd] at h
        have hdep : cfg.maxDepth + 1 - depth =
            (cfg.maxDepth + 1 - (depth + 1)) + 1 := by omega
        by_cases hcy : (cfg.detectCycles ∧ nodeKey node ∈ st.currentPath)
        · rw [if_pos hcy] at h
          by_cases hro : cfg.raiseOnCycle = true
          · rw [if_pos hro] at h
            cases h
          · rw [if_neg hro] at h
            injection h with h
            have hn : n = 0 := (congrArg Prod.snd h).symm
            omega
        · rw [if_neg hcy] at h
          simp only [] at h
          have hfold : ∀ (cs : List Node) (acc : TravState × Nat)
              (q : TravState × Nat),
              cs.foldl
                (fun (acc : Except Unit (TravState × Nat)) c =>
                  match acc with
                  | .error e => .error e
                  | .ok p =>
                      match traverseRec cfg ch f c (depth + 1) p.1 with
                      | .error e => .error e
                      | .ok q => .ok (q.1, p.2 + q.2))
                (.ok acc) = .ok q →
              q.2 ≤ acc.2 +
                cs.length * geomSum b (cfg.maxDepth + 1 - (depth + 1)) := by
            intro cs
            induction cs with
            | nil =>
                intro acc q hq
                injection hq with hq
                have : q.2 = acc.2 := congrArg Prod.snd hq.symm
                simp only [List.length_nil]
                omega
            | cons c rest ihc =>
                intro acc q hq
                rw [List.foldl_cons] at hq
                cases hrec : traverseRec cfg ch f c (depth + 1) acc.1 with
                | error e =>
                    simp only [hrec] at hq
                    have herr : ∀ (l : List Node),
                        l.foldl
                          (fun (acc : Except Unit (TravState × Nat)) c =>
                            match acc with
                            | .error e => .error e
                            | .ok p =>
                                match traverseRec cfg ch f c (depth + 1) p.1 with
                                | .error e => .error e
                                | .ok q => .ok (q.1, p.2 + q.2))
                          (.error e) = .error e := by
                      intro l
                      induction l with
                      | nil => rfl
                      | cons x xs ihx => rw [List.foldl_cons]; exact ihx
                    rw [herr rest] at hq
                    cases hq
                | ok r =>
                    simp only [hrec] at hq
                    have hr := ih c (depth + 1) acc.1 r.1 r.2 (by rw [hrec])
                    have hrest := ihc (r.1, acc.2 + r.2) q hq
                    have hmul : (rest.length + 1) *
                        geomSum b (cfg.maxDepth + 1 - (depth + 1)) =
                        rest.length * geomSum b (cfg.maxDepth + 1 - (depth + 1)) +
                        geomSum b (cfg.maxDepth + 1 - (depth + 1)) := by ring
                    simp only [List.length_cons] at *
                    omega
          cases hf : (ch node).foldl
              (fun (acc : Except Unit (TravState × Nat)) c =>
                match acc with
                | .error e => .error e
                | .ok p =>
                    match traverseRec cfg ch f c (depth + 1) p.1 with
                    | .error e => .error e
                    | .ok q => .ok (q.1, p.2 + q.2))
              (.ok ({ st with
                currentPath := st.currentPath ++ [nodeKey node],
                visited := insertSet st.visited (nodeKey node) }, 0)) with
          | error e =>
              rw [hf] at h
              cases h
          | ok p =>
              rw [hf] at h
              simp only [] at h
              injection h with h2
              have hn := congrArg Prod.snd h2
              simp only [] at hn
              have hp := hfold (ch node) _ p hf
              simp only [] at hp
              have hlen : (ch node).length *
                  geomSum b (cfg.maxDepth + 1 - (depth + 1)) ≤
                  b * geomSum b (cfg.maxDepth + 1 - (depth + 1)) :=
                Nat.mul_le_mul_right _ (hb node)
              rw [hdep]
              unfold geomSum
              omega

/-- The traversal result does not depend on the fuel once the fuel covers
the remaining depth budget: the depth guard, not fuel exhaustion, is what
stops every branch. This is the termination content of the model. -/
theorem traverseRec_fuel_stable (cfg : TraversalConfig) (ch : Node → List Node) :
    ∀ (f g : Nat) (node : Node) (depth : Nat) (st : TravState),
      cfg.maxDepth + 2 - depth ≤ f → cfg.maxDepth + 2 - depth ≤ g →
      traverseRec cfg ch f node depth st = traverseRec cfg ch g node depth st := by
  intro f
  induction f with
  | zero =>
      intro g node depth st hf hg
      have hd : cfg.maxDepth < depth := by omega
      rw [traverseRec_depth_guard cfg ch 0 node depth st hd,
        traverseRec_depth_guard cfg ch g node depth st hd]
  | succ f ih =>
      intro g node depth st hf hg
      by_cases hd : cfg.maxDepth < depth
      · rw [traverseRec_depth_guard _ _ _ _ _ _ hd,
          traverseRec_depth_guard _ _ _ _ _ _ hd]
      · obtain ⟨g', rfl⟩ : ∃ g', g = g' + 1 := ⟨g - 1, by omega⟩
        have hAB : (ch node).foldl
            (fun (acc : Except Unit (TravState × Nat)) c =>
              match acc with
              | .error e => .error e
              | .ok p =>
                  match traverseRec cfg ch f c (depth + 1) p.1 with
                  | .error e => .error e
                  | .ok q => .ok (q.1, p.2 + q.2))
            (.ok ({ st with
              currentPath := st.currentPath ++ [nodeKey node],
              visited := insertSet st.visited (nodeKey node) }, 0)) =
            (ch node).foldl
            (fun (acc : Except Unit (TravState × Nat)) c =>
              match acc with
              | .error e => .error e
              | .ok p =>
                  match traverseRec cfg ch g' c (depth + 1) p.1 with
                  | .error e => .error e
                  | .ok q => .ok (q.1, p.2 + q.2))
            (.ok ({ st with
              currentPath := st.currentPath ++ [nodeKey node],
              visited := insertSet st.visited (nodeKey node) }, 0)) := by
          apply List.foldl_ext
          intro a c _
          cases a with
          | error e => rfl
          | ok p =>
              have hrec := ih g' c (depth + 1) p.1 (by omega) (by omega)
              simp only [hrec]
        unfold traverseRec
        rw [if_neg hd, if_neg hd]
        by_cases hcy : cfg.detectCycles ∧ nodeKey node ∈ st.currentPath
        · rw [if_pos hcy, if_pos hcy]
        · rw [if_neg hcy, if_neg hcy]
          simp only []
          rw [hAB]

/-- A node x connected to both x and y. -/
def xBranch : Node :=
  ⟨some "x", some "decision", none, none, none,
   some (.dictC [("1", .s "x"), ("2", .s "y")])⟩

/-- A node y connected to both x and y. -/
def yBranch : Node :=
  ⟨some "y", some "decision", none, none, none,
   some (.dictC [("1", .s "x"), ("2", .s "y")])⟩

/-- The children closure over the two-node complete digraph. -/
def branchChildren : Node → List Node :=
  validateChildren [("x", xBranch), ("y", yBranch)]

/-- C5 counterexample: on the two-node complete digraph with max_depth 3
and cycle detection disabled, the traversal processes 15 nodes, while the
claimed bound max_depth times maximum branching factor is 3 times 2. -/
theorem traverser_linear_bound_counterexample :
    (∃ st, traverseTree ⟨3, false, false⟩ branchChildren xBranch =
      .ok (st, 15)) ∧
    (∀ m ∈ [xBranch, yBranch], (branchChildren m).length = 2) ∧
    ¬ (15 ≤ 3 * 2) := by
  exact ⟨⟨⟨["x", "y"], [], false⟩, rfl⟩, by decide, by decide⟩

/-- C5 (amended): for every configuration, children callback and graph the
traversal returns a no-op past the depth bound without visiting children;
the result is independent of the fuel once it covers the depth budget
(the structural termination guarantee, holding also with cycle detection
disabled); and one top-level call processes at most the geometric budget
geomSum b (max_depth + 1) nodes for any branching bound b of the
callback — not max_depth times b, as the counterexample shows. -/
theorem traverser_depth_and_geometric_guarantees :
    (∀ (cfg : TraversalConfig) (ch : Node → List Node) (fuel : Nat)
        (node : Node) (depth : Nat) (st : TravState),
      cfg.maxDepth < depth →
      traverseRec cfg ch fuel node depth st = .ok (st, 0)) ∧
    (∀ (cfg : TraversalConfig) (ch : Node → List Node) (b : Nat),
      (∀ m, (ch m).length ≤ b) →
      ∀ (node : Node) (st' : TravState) (n : Nat),
        traverseTree cfg ch node = .ok (st', n) →
        n ≤ geomSum b (cfg.maxDepth + 1)) ∧
    (∀ (cfg : TraversalConfig) (ch : Node → List Node) (f : Nat)
        (node : Node),
      cfg.maxDepth + 2 ≤ f →
      traverseRec cfg ch f node 0 ⟨[], [], false⟩ =
        traverseTree cfg ch node) := by
  refine ⟨traverseRec_depth_guard, ?_, ?_⟩
  · intro cfg ch b hb node st' n h
    have hle := traverseRec_visits_le cfg ch b hb (cfg.maxDepth + 2) node 0
      ⟨[], [], false⟩ st' n h
    simpa using hle
  · intro cfg ch f node hf
    exact traverseRec_fuel_stable cfg ch f (cfg.maxDepth + 2) node 0
      ⟨[], [], false⟩ (by omega) (by omega)

/-- A children callback returning both nodes for every input. -/
def twoChildren : Node → List Node :=
  fun _ => [xBranch, yBranch]

/-- Witness for traverser_depth_and_geometric_guarantees: the depth guard
at depth 4 with bound 3, the geometric budget on the two-node complete
digraph, and fuel independence at fuel 20. -/
theorem traverser_depth_and_geometric_guarantees_witness :
    traverseRec ⟨3, true, false⟩ twoChildren 9 xBranch 4 ⟨[], [], false⟩ =
      .ok (⟨[], [], false⟩, 0) ∧
    (∃ st n, traverseTree ⟨3, false, false⟩ twoChildren xBranch =
      .ok (st, n) ∧ n ≤ geomSum 2 4) ∧
    traverseRec ⟨3, false, false⟩ twoChildren 20 xBranch 0 ⟨[], [], false⟩ =
      traverseTree ⟨3, false, false⟩ twoChildren xBranch := by
  refine ⟨traverser_depth_and_geometric_guarantees.1 _ _ _ _ _ _ (by decide),
    ?_, traverser_depth_and_geometric_guarantees.2.2 ⟨3, false, false⟩
      twoChildren 20 xBranch (by decide)⟩
  exact ⟨⟨["x", "y"], [], false⟩, 15, rfl,
    traverser_depth_and_geometric_guarantees.2.1 ⟨3, false, false⟩
      twoChildren 2 (fun _ => Nat.le_refl 2) xBranch _ _ rfl⟩

/-- A fold whose step fixes errors stays an error. -/
theorem foldl_error_fix {α β : Type} (step : Except Unit α → β → Except Unit α)
    (hstep : ∀ e c, step (.error e) c = .error e) :
    ∀ (l : List β) (e : Unit), l.foldl step (.error e) = .error e := by
  intro l
  induction l with
  | nil => intro e; rfl
  | cons x xs ihx =>
      intro e
      rw [List.foldl_cons, hstep]
      exact ihx e

/-- The edge relation find_all_paths actually follows: a truthy target of
the source node's connections (after nested-object id extraction in the
mapping shape) that names an existing node. -/
def pathEdge (entries : List (String × Node)) (a b : String) : Prop :=
  b ≠ "" ∧ (entries.map (fun p => p.1)).contains b = true ∧
    (some b, false) ∈ pathSuccessors
      ((((assocFind entries a).getD emptyNode)).connections.getD (.dictC []))

/-- The head of a list does not change under appending when the prefix is
non-empty. -/
theorem head?_append_left {α : Type} (l l2 : List α) (h : l ≠ []) :
    (l ++ l2).head? = l.head? := by
  cases l with
  | nil => exact absurd rfl h
  | cons a t => rfl

/-- Soundness invariant of the dfs of find_all_paths: every path the call
adds starts where the current branch starts, ends at the target, follows
edges of the graph, and repeats no node. -/
theorem dfsPaths_sound (entries : List (String × Node)) (target : String) :
    ∀ (fuel : Nat) (current : String) (path visited : List String)
      (acc res : List (List String)),
      dfsPaths entries fuel current target path visited acc = .ok res →
      List.Chain' (pathEdge entries) (path ++ [current]) →
      path.Nodup → ¬ current ∈ path → (∀ x ∈ path, x ∈ visited) →
      ∀ p ∈ res, p ∈ acc ∨
        (p.head? = (path ++ [current]).head? ∧ p.getLast? = some target ∧
         List.Chain' (pathEdge entries) p ∧ p.Nodup) := by
  intro fuel
  induction fuel with
  | zero =>
      intro current path visited acc res h hch hnd hcp hsub p hp
      injection h with h
      subst h
      exact Or.inl hp
  | succ f ih =>
      intro current path visited acc res h hch hnd hcp hsub p hp
      unfold dfsPaths at h
      by_cases htgt : current = target
      · rw [if_pos htgt] at h
        injection h with h
        subst h
        rcases List.mem_append.mp hp with h1 | h1
        · exact Or.inl h1
        · right
          have hpe : p = path ++ [current] := List.mem_singleton.mp h1
          subst hpe
          refine ⟨rfl, ?_, hch, ?_⟩
          · rw [List.getLast?_concat, htgt]
          · rw [← List.concat_eq_append]
            exact hnd.concat hcp
      · rw [if_neg htgt] at h
        by_cases hvis : current ∈ visited
        · rw [if_pos hvis] at h
          injection h with h
          subst h
          exact Or.inl hp
        · rw [if_neg hvis] at h
          simp only [] at h
          have hfold : ∀ (scs : List (Option String × Bool))
              (acc2 res2 : List (List String)),
              scs.foldl
                (fun (a : Except Unit (List (List String)))
                    (s : Option String × Bool) =>
                  match a with
                  | .error e => .error e
                  | .ok acc2 =>
                      if s.2 then .error ()
                      else
                        match s.1 with
                        | some v =>
                            if v ≠ "" ∧
                                ((entries.map (fun p => p.1)).contains v)
                                ∧ ¬ v ∈ visited ++ [current] then
                              dfsPaths entries f v target
                                (path ++ [current]) (visited ++ [current]) acc2
                            else .ok acc2
                        | none => .ok acc2)
                (.ok acc2) = .ok res2 →
              (∀ sc ∈ scs, sc ∈ pathSuccessors
                ((((assocFind entries current).getD
                  emptyNode)).connections.getD (.dictC []))) →
              (∀ q ∈ acc2, q ∈ acc ∨
                (q.head? = (path ++ [current]).head? ∧
                 q.getLast? = some target ∧
                 List.Chain' (pathEdge entries) q ∧ q.Nodup)) →
              ∀ q ∈ res2, q ∈ acc ∨
                (q.head? = (path ++ [current]).head? ∧
                 q.getLast? = some target ∧
                 List.Chain' (pathEdge entries) q ∧ q.Nodup) := by
            intro scs
            induction scs with
            | nil =>
                intro acc2 res2 hq _ hacc
                injection hq with hq
                subst hq
                exact hacc
            | cons sc rest ihs =>
                intro acc2 res2 hq hmemsc hacc
                rw [List.foldl_cons] at hq
                simp only [] at hq
                by_cases hs2 : sc.2 = true
                · rw [if_pos hs2] at hq
                  rw [foldl_error_fix _ (by intro e c; rfl) rest] at hq
                  cases hq
                · rw [if_neg hs2] at hq
                  cases hsc1 : sc.1 with
                  | none =>
                      simp only [hsc1] at hq
                      exact ihs acc2 res2 hq
                        (fun x hx => hmemsc x (List.mem_cons_of_mem _ hx)) hacc
                  | some v =>
                      simp only [hsc1] at hq
                      by_cases hg : v ≠ "" ∧
                          ((entries.map (fun p => p.1)).contains v) = true
                          ∧ ¬ v ∈ visited ++ [current]
                      · rw [if_pos hg] at hq
                        cases hr : dfsPaths entries f v target
                            (path ++ [current]) (visited ++ [current]) acc2 with
                        | error e =>
                            rw [hr] at hq
                            rw [foldl_error_fix _ (by intro e c; rfl) rest] at hq
                            cases hq
                        | ok mid =>
                            rw [hr] at hq
                            have hedge : pathEdge entries current v := by
                              refine ⟨hg.1, hg.2.1, ?_⟩
                              have hsc := hmemsc sc (List.mem_cons_self _ _)
                              have hsceq : sc = (some v, false) := by
                                have hs2f : sc.2 = false := by
                                  cases hx : sc.2 with
                                  | true => exact absurd hx hs2
                                  | false => rfl
                                cases sc
                                simp only at hsc1 hs2f
                                rw [hsc1, hs2f]
                              rw [← hsceq]
                              exact hsc
                            have hch2 : List.Chain' (pathEdge entries)
                                ((path ++ [current]) ++ [v]) := by
                              rw [List.chain'_append]
                              refine ⟨hch, List.chain'_singleton _, ?_⟩
                              intro x hx y hy
                              rw [List.getLast?_concat] at hx
                              injection hx with hx
                              injection hy with hy
                              rw [← hx, ← hy]
                              exact hedge
                            have hnd2 : (path ++ [current]).Nodup := by
                              rw [← List.concat_eq_append]
                              exact hnd.concat hcp
                            have hcp2 : ¬ v ∈ path ++ [current] := by
                              intro hvin
                              apply hg.2.2
                              rcases List.mem_append.mp hvin with hvp | hvc
                              · exact List.mem_append_left _ (hsub v hvp)
                              · exact List.mem_append_right _ hvc
                            have hsub2 : ∀ x ∈ path ++ [current],
                                x ∈ visited ++ [current] := by
                              intro x hx
                              rcases List.mem_append.mp hx with hxp | hxc
                              · exact List.mem_append_left _ (hsub x hxp)
                              · exact List.mem_append_right _ hxc
                            have hmid := ih v (path ++ [current])
                              (visited ++ [current]) acc2 mid hr hch2 hnd2
                              hcp2 hsub2
                            refine ihs mid res2 hq
                              (fun x hx => hmemsc x (List.mem_cons_of_mem _ hx))
                              ?_
                            intro q hqm
                            rcases hmid q hqm with hqa | hqg
                            · exact hacc q hqa
                            · right
                              refine ⟨?_, hqg.2.1, hqg.2.2.1, hqg.2.2.2⟩
                              rw [hqg.1]
                              exact head?_append_left _ _ (by simp)
                      · rw [if_neg hg] at hq
                        exact ihs acc2 res2 hq
                          (fun x hx => hmemsc x (List.mem_cons_of_mem _ hx)) hacc
          exact hfold _ acc res h (fun sc hsc => hsc) (fun q hq => Or.inl hq) p hp

/-- The number of node keys the dfs of find_all_paths may still enter on
a branch: distinct keys not yet in the per-branch visited set. -/
def freshCount (entries : List (String × Node)) (visited : List String) : Nat :=
  ((entries.map (fun p => p.1)).dedup.filter
    (fun x => ! visited.contains x)).length

/-- Entering a key node strictly shrinks the fresh-key measure. -/
theorem freshCount_lt (entries : List (String × Node)) (visited : List String)
    (current : String) (hk : current ∈ entries.map (fun p => p.1))
    (hv : ¬ current ∈ visited) :
    freshCount entries (visited ++ [current]) < freshCount entries visited := by
  unfold freshCount
  have hpred : ∀ x, (! (visited ++ [current]).contains x) =
      ((! x == current) && (! visited.contains x)) := by
    intro x
    by_cases hx1 : x ∈ visited
    · simp [hx1]
    · by_cases hx2 : x = current
      · simp [hx2, hx1]
      · simp [hx1, hx2]
  rw [List.filter_congr (fun x _ => hpred x), ← List.filter_filter]
  apply List.length_filter_lt_length_iff_exists.mpr
  refine ⟨current, ?_, by simp⟩
  rw [List.mem_filter]
  exact ⟨List.mem_dedup.mpr hk, by simp [hv]⟩

/-- Fuel stability of the dfs of find_all_paths: once the fuel exceeds the
fresh-key measure the result no longer depends on it, i.e. the recursion
terminates on every graph, cyclic ones included. -/
theorem dfsPaths_fuel_stable (entries : List (String × Node)) (target : String) :
    ∀ fuel fuel2 current path visited acc,
      current ∈ entries.map (fun p => p.1) →
      freshCount entries visited < fuel →
      freshCount entries visited < fuel2 →
      dfsPaths entries fuel current target path visited acc =
      dfsPaths entries fuel2 current target path visited acc := by
  intro fuel
  induction fuel with
  | zero => intro fuel2 current path visited acc _ h1 _; omega
  | succ m ih =>
      intro fuel2 current path visited acc hk h1 h2
      cases fuel2 with
      | zero => omega
      | succ m2 =>
          unfold dfsPaths
          by_cases ht : current = target
          · rw [if_pos ht, if_pos ht]
          · rw [if_neg ht, if_neg ht]
            by_cases hvis : current ∈ visited
            · rw [if_pos hvis, if_pos hvis]
            · rw [if_neg hvis, if_neg hvis]
              apply List.foldl_ext
              intro a s hs
              cases a with
              | error e => rfl
              | ok acc2 =>
                  simp only []
                  by_cases hs2 : s.2 = true
                  · rw [if_pos hs2, if_pos hs2]
                  · rw [if_neg hs2, if_neg hs2]
                    cases hs1 : s.1 with
                    | none => rfl
                    | some v =>
                        simp only []
                        by_cases hg : v ≠ "" ∧
                            ((entries.map (fun p => p.1)).contains v) = true
                            ∧ ¬ v ∈ visited ++ [current]
                        · rw [if_pos hg, if_pos hg]
                          have hvk : v ∈ entries.map (fun p => p.1) := by
                            have hc := hg.2.1
                            simpa using hc
                          have hlt := freshCount_lt entries visited current hk hvis
                          exact ih m2 v (path ++ [current])
                            (visited ++ [current]) acc2 hvk
                            (by omega) (by omega)
                        · rw [if_neg hg, if_neg hg]

/-- Diamond-graph nodes: s branches to a and b, both reaching e; b uses
the record wire shape. -/
def sNode : Node :=
  ⟨some "s", some "question", none, none, none,
   some (.dictC [("yes", .s "a"), ("no", .s "b")])⟩

def aNode : Node :=
  ⟨some "a", some "question", none, none, none,
   some (.dictC [("ok", .s "e")])⟩

def bNode : Node :=
  ⟨some "b", some "question", none, none, none,
   some (.listC [⟨none, some (.s "e"), none⟩])⟩

def eNode : Node :=
  ⟨some "e", some "decision", none, none, none, none⟩

/-- The diamond tree entries, dict wire shape. -/
def entriesDiamond : List (String × Node) :=
  [("s", sNode), ("a", aNode), ("b", bNode), ("e", eNode)]

/-- The diamond tree. -/
def treeDiamond : Tree :=
  ⟨some (.dictN entriesDiamond), []⟩

/-- C8: every path returned by find_all_paths is a valid simple path (it
starts at the start id, ends at the end id, follows edges of the graph
and repeats no node), and the enumeration terminates on every graph:
past the canonical budget the result is fuel-independent. -/
theorem find_all_paths_valid (tree : Tree) (startId endId : String)
    (entries : List (String × Node)) (res : List (List String))
    (hn : tree.nodes = some (.dictN entries))
    (h : find_all_paths tree startId endId = .ok res) :
    (∀ p ∈ res, p.head? = some startId ∧ p.getLast? = some endId ∧
      List.Chain' (pathEdge entries) p ∧ p.Nodup) ∧
    (((entries.map (fun p => p.1)).contains startId = true
        ∧ (entries.map (fun p => p.1)).contains endId = true) →
      ∀ fuel, entries.length + 2 ≤ fuel →
        dfsPaths entries fuel startId endId [] [] [] = .ok res) := by
  unfold find_all_paths at h
  rw [hn] at h
  simp only [] at h
  by_cases hguard : (entries.map (fun p => p.1)).contains startId = true
      ∧ (entries.map (fun p => p.1)).contains endId = true
  · rw [if_pos hguard] at h
    have hfresh : freshCount entries [] ≤ entries.length := by
      unfold freshCount
      calc ((entries.map (fun p => p.1)).dedup.filter
              (fun x => ! ([] : List String).contains x)).length
          ≤ (entries.map (fun p => p.1)).dedup.length :=
            List.length_filter_le _ _
        _ ≤ (entries.map (fun p => p.1)).length :=
            (List.dedup_sublist _).length_le
        _ = entries.length := List.length_map _ _
    constructor
    · intro p hp
      have hsound := dfsPaths_sound entries endId (entries.length + 2)
        startId [] [] [] res h (by simp) List.nodup_nil
        (List.not_mem_nil _) (fun x hx => absurd hx (List.not_mem_nil x))
      rcases hsound p hp with hfalse | hgood
      · exact absurd hfalse (List.not_mem_nil p)
      · refine ⟨?_, hgood.2.1, hgood.2.2.1, hgood.2.2.2⟩
        rw [hgood.1]
        rfl
    · intro _ fuel hf
      rw [← h]
      have hsk : startId ∈ entries.map (fun p => p.1) := by
        have hc := hguard.1
        simpa using hc
      exact dfsPaths_fuel_stable entries endId fuel (entries.length + 2)
        startId [] [] [] hsk (by omega) (by omega)
  · rw [if_neg hguard] at h
    injection h with h
    constructor
    · intro p hp
      rw [← h] at hp
      exact absurd hp (List.not_mem_nil p)
    · intro hc
      exact absurd hc hguard

/-- C8 witness: on the diamond graph the enumerator returns exactly the
two simple paths and the theorem certifies their validity. -/
theorem find_all_paths_valid_witness :
    find_all_paths treeDiamond "s" "e" =
      .ok [["s", "a", "e"], ["s", "b", "e"]] ∧
    (∀ p ∈ [["s", "a", "e"], ["s", "b", "e"]],
      p.head? = some "s" ∧ p.getLast? = some "e" ∧
      List.Chain' (pathEdge entriesDiamond) p ∧ p.Nodup) :=
  ⟨rfl, (find_all_paths_valid treeDiamond "s" "e" entriesDiamond
    [["s", "a", "e"], ["s", "b", "e"]] rfl rfl).1⟩

/-- The edge relation detect_circular_references actually follows: a
truthy in-container target of the source node connections (after
nested-object id extraction in the mapping shape). -/
def detectEdge (entries : List (String × Node)) (a b : String) : Prop :=
  b ≠ "" ∧ (entries.map (fun p => p.1)).contains b = true ∧
    (some b, false) ∈ detectSuccessors
      ((((assocFind entries a).getD emptyNode)).connections.getD (.dictC []))

/-- A closed edge cycle of the graph: a non-trivial edge chain whose
first and last node ids coincide. -/
def isClosedCycle (entries : List (String × Node)) (c : List String) : Prop :=
  ∃ n, c.head? = some n ∧ c.getLast? = some n ∧
    List.Chain' (detectEdge entries) c ∧ 2 ≤ c.length

/-- Soundness invariant of the dfs of detect_circular_references: every
reference record the call adds is a closed edge cycle of the graph. -/
theorem dfsDetect_sound (entries : List (String × Node)) :
    ∀ (fuel : Nat) (nid : String) (path visiting : List String)
      (st res : DetectState),
      dfsDetect entries fuel nid path visiting st = .ok res →
      path = visiting →
      (path = [] ∨ List.Chain' (detectEdge entries) (path ++ [nid])) →
      ∀ c ∈ res.refs, c ∈ st.refs ∨ isClosedCycle entries c := by
  intro fuel
  induction fuel with
  | zero =>
      intro nid path visiting st res h hpv hch c hc
      injection h with h
      subst h
      exact Or.inl hc
  | succ f ih =>
      intro nid path visiting st res h hpv hch c hc
      unfold dfsDetect at h
      by_cases hvis : nid ∈ visiting
      · rw [if_pos hvis] at h
        injection h with h
        subst h
        simp only [] at hc
        rcases List.mem_append.mp hc with h1 | h1
        · exact Or.inl h1
        · right
          have hce : c = path.drop (path.indexOf nid) ++ [nid] :=
            List.mem_singleton.mp h1
          have hmem : nid ∈ path := hpv ▸ hvis
          have hi : path.indexOf nid < path.length :=
            List.indexOf_lt_length.mpr hmem
          have hchain : List.Chain' (detectEdge entries) (path ++ [nid]) := by
            rcases hch with hn | hyes
            · rw [hn] at hmem
              exact absurd hmem (List.not_mem_nil nid)
            · exact hyes
          refine ⟨nid, ?_, ?_, ?_, ?_⟩
          · rw [hce, head?_append_left]
            · rw [List.head?_drop]
              have hgetix := List.indexOf_get hi
              rw [List.get_eq_getElem] at hgetix
              rw [List.getElem?_eq_getElem hi, hgetix]
            · intro hdrop
              have hlen := congrArg List.length hdrop
              rw [List.length_drop] at hlen
              simp only [List.length_nil] at hlen
              omega
          · rw [hce, List.getLast?_concat]
          · rw [hce, ← List.drop_append_of_le_length (Nat.le_of_lt hi)]
            exact hchain.suffix (List.drop_suffix _ _)
          · rw [hce, List.length_append, List.length_drop]
            simp only [List.length_singleton]
            omega
      · rw [if_neg hvis] at h
        by_cases hgv : nid ∈ st.visited
        · rw [if_pos hgv] at h
          injection h with h
          subst h
          exact Or.inl hc
        · rw [if_neg hgv] at h
          simp only [] at h
          have hchain1 : List.Chain' (detectEdge entries) (path ++ [nid]) := by
            rcases hch with hn | hyes
            · rw [hn]
              exact List.chain'_singleton nid
            · exact hyes
          have hfold : ∀ (scs : List (Option String × Bool))
              (st0 st3 : DetectState),
              scs.foldl
                (fun (acc : Except Unit DetectState)
                    (s : Option String × Bool) =>
                  match acc with
                  | .error e => .error e
                  | .ok st2 =>
                      if s.2 then .error ()
                      else
                        match s.1 with
                        | some v =>
                            if v ≠ "" ∧
                                ((entries.map (fun p => p.1)).contains v) then
                              dfsDetect entries f v (path ++ [nid])
                                (visiting ++ [nid]) st2
                            else .ok st2
                        | none => .ok st2)
                (.ok st0) = .ok st3 →
              (∀ sc ∈ scs, sc ∈ detectSuccessors
                ((((assocFind entries nid).getD
                  emptyNode)).connections.getD (.dictC []))) →
              (∀ q ∈ st0.refs, q ∈ st.refs ∨ isClosedCycle entries q) →
              ∀ q ∈ st3.refs, q ∈ st.refs ∨ isClosedCycle entries q := by
            intro scs
            induction scs with
            | nil =>
                intro st0 st3 hq _ hacc
                injection hq with hq
                subst hq
                exact hacc
            | cons sc rest ihs =>
                intro st0 st3 hq hmemsc hacc
                rw [List.foldl_cons] at hq
                simp only [] at hq
                by_cases hs2 : sc.2 = true
                · rw [if_pos hs2] at hq
                  rw [foldl_error_fix _ (by intro e c2; rfl) rest] at hq
                  cases hq
                · rw [if_neg hs2] at hq
                  cases hsc1 : sc.1 with
                  | none =>
                      simp only [hsc1] at hq
                      exact ihs st0 st3 hq
                        (fun x hx => hmemsc x (List.mem_cons_of_mem _ hx)) hacc
                  | some v =>
                      simp only [hsc1] at hq
                      by_cases hg : v ≠ "" ∧
                          ((entries.map (fun p => p.1)).contains v) = true
                      · rw [if_pos hg] at hq
                        cases hr : dfsDetect entries f v (path ++ [nid])
                            (visiting ++ [nid]) st0 with
                        | error e =>
                            rw [hr] at hq
                            rw [foldl_error_fix _ (by intro e c2; rfl) rest]
                              at hq
                            cases hq
                        | ok mid =>
                            rw [hr] at hq
                            have hedge : detectEdge entries nid v := by
                              refine ⟨hg.1, hg.2, ?_⟩
                              have hsc := hmemsc sc (List.mem_cons_self _ _)
                              have hsceq : sc = (some v, false) := by
                                have hs2f : sc.2 = false := by
                                  cases hx : sc.2 with
                                  | true => exact absurd hx hs2
                                  | false => rfl
                                cases sc
                                simp only at hsc1 hs2f
                                rw [hsc1, hs2f]
                              rw [← hsceq]
                              exact hsc
                            have hch2 : List.Chain' (detectEdge entries)
                                ((path ++ [nid]) ++ [v]) := by
                              rw [List.chain'_append]
                              refine ⟨hchain1, List.chain'_singleton _, ?_⟩
                              intro x hx y hy
                              rw [List.getLast?_concat] at hx
                              injection hx with hx
                              injection hy with hy
                              rw [← hx, ← hy]
                              exact hedge
                            have hmid := ih v (path ++ [nid])
                              (visiting ++ [nid]) st0 mid hr
                              (by rw [hpv]) (Or.inr hch2)
                            refine ihs mid st3 hq
                              (fun x hx => hmemsc x (List.mem_cons_of_mem _ hx))
                              ?_
                            intro q hqm
                            rcases hmid q hqm with hqa | hqg
                            · exact hacc q hqa
                            · exact Or.inr hqg
                      · rw [if_neg hg] at hq
                        exact ihs st0 st3 hq
                          (fun x hx => hmemsc x (List.mem_cons_of_mem _ hx)) hacc
          cases hafter : (detectSuccessors
              ((((assocFind entries nid).getD
                emptyNode)).connections.getD (.dictC []))).foldl
                (fun (acc : Except Unit DetectState)
                    (s : Option String × Bool) =>
                  match acc with
                  | .error e => .error e
                  | .ok st2 =>
                      if s.2 then .error ()
                      else
                        match s.1 with
                        | some v =>
                            if v ≠ "" ∧
                                ((entries.map (fun p => p.1)).contains v) then
                              dfsDetect entries f v (path ++ [nid])
                                (visiting ++ [nid]) st2
                            else .ok st2
                        | none => .ok st2)
                (.ok st) with
          | error e =>
              rw [hafter] at h
              cases h
          | ok st3 =>
              rw [hafter] at h
              injection h with h
              subst h
              simp only [] at hc
              exact hfold _ st st3 hafter (fun sc hsc => hsc)
                (fun q hq => Or.inl hq) c hc


/-- Top-level soundness of detect_circular_references on a dict-shaped
nodes container: every returned reference is a closed edge cycle. -/
theorem detect_circular_references_sound (tree : Tree)
    (entries : List (String × Node)) (res : List (List String))
    (hn : tree.nodes = some (.dictN entries))
    (h : detect_circular_references tree = .ok res) :
    ∀ c ∈ res, isClosedCycle entries c := by
  unfold detect_circular_references at h
  rw [hn] at h
  simp only [] at h
  have hfold : ∀ (ps : List (String × Node)) (st0 st3 : DetectState),
      ps.foldl
        (fun (acc : Except Unit DetectState) (p : String × Node) =>
          match acc with
          | .error e => .error e
          | .ok st =>
              if p.1 ∈ st.visited then .ok st
              else dfsDetect entries (entries.length + 2) p.1 [] [] st)
        (.ok st0) = .ok st3 →
      (∀ q ∈ st0.refs, isClosedCycle entries q) →
      ∀ q ∈ st3.refs, isClosedCycle entries q := by
    intro ps
    induction ps with
    | nil =>
        intro st0 st3 hq hacc
        injection hq with hq
        subst hq
        exact hacc
    | cons p rest ihs =>
        intro st0 st3 hq hacc
        rw [List.foldl_cons] at hq
        simp only [] at hq
        by_cases hv : p.1 ∈ st0.visited
        · rw [if_pos hv] at hq
          exact ihs st0 st3 hq hacc
        · rw [if_neg hv] at hq
          cases hr : dfsDetect entries (entries.length + 2) p.1 [] [] st0 with
          | error e =>
              rw [hr] at hq
              rw [foldl_error_fix _ (by intro e c2; rfl) rest] at hq
              cases hq
          | ok mid =>
              rw [hr] at hq
              have hmid := dfsDetect_sound entries (entries.length + 2)
                p.1 [] [] st0 mid hr rfl (Or.inl rfl)
              refine ihs mid st3 hq ?_
              intro q hqm
              rcases hmid q hqm with hqa | hqg
              · exact hacc q hqa
              · exact hqg
  cases hfin : entries.foldl
      (fun (acc : Except Unit DetectState) (p : String × Node) =>
        match acc with
        | .error e => .error e
        | .ok st =>
            if p.1 ∈ st.visited then .ok st
            else dfsDetect entries (entries.length + 2) p.1 [] [] st)
      (.ok ⟨[], []⟩) with
  | error e =>
      rw [hfin] at h
      cases h
  | ok st =>
      rw [hfin] at h
      injection h with h
      subst h
      exact hfold entries ⟨[], []⟩ st hfin
        (fun q hq => absurd hq (List.not_mem_nil q))

/-- Self-loop nodes: x targets itself, y points at x. -/
def xSelf : Node :=
  ⟨some "x", some "decision", none, none, none,
   some (.dictC [("again", .s "x")])⟩

def ySelf : Node :=
  ⟨some "y", some "question", none, none, none,
   some (.dictC [("go", .s "x")])⟩

def entriesSelfLoop : List (String × Node) :=
  [("x", xSelf), ("y", ySelf)]

/-- A tree with a self-loop on x. -/
def treeSelfLoop : Tree :=
  ⟨some (.dictN entriesSelfLoop), []⟩

/-- The 3-cycle A to B to C back to A, mapping wire shape. -/
def entries3Cycle : List (String × Node) :=
  [("A", ⟨some "A", none, none, none, none, some (.dictC [("n", .s "B")])⟩),
   ("B", ⟨some "B", none, none, none, none, some (.dictC [("n", .s "C")])⟩),
   ("C", ⟨some "C", none, none, none, none, some (.dictC [("n", .s "A")])⟩)]

def tree3Cycle : Tree :=
  ⟨some (.dictN entries3Cycle), []⟩

/-- A disconnected acyclic node D next to an isolated cyclic island
E and F (E in the record wire shape). -/
def entriesIslands : List (String × Node) :=
  [("D", ⟨some "D", none, none, none, none, some (.dictC [])⟩),
   ("E", ⟨some "E", none, none, none, none,
     some (.listC [⟨none, some (.s "F"), none⟩])⟩),
   ("F", ⟨some "F", none, none, none, none,
     some (.dictC [("back", .s "E")])⟩)]

def treeIslands : Tree :=
  ⟨some (.dictN entriesIslands), []⟩

/-- C6: the cycle detector returns only closed non-trivial edge cycles
(first element equals last), so an acyclic graph yields the empty list;
a self-loop is reported as the minimal cycle [x, x]; the 3-cycle A, B, C
yields exactly the one cycle [A, B, C, A]; and an isolated cyclic island
behind a disconnected component is still found. -/
theorem cycle_detector_contract :
    (∀ (tree : Tree) (entries : List (String × Node))
        (res : List (List String)),
      tree.nodes = some (.dictN entries) →
      detect_circular_references tree = .ok res →
      ∀ c ∈ res, ∃ n, c.head? = some n ∧ c.getLast? = some n ∧
        List.Chain' (detectEdge entries) c ∧ 2 ≤ c.length) ∧
    (∀ (tree : Tree) (entries : List (String × Node))
        (res : List (List String)),
      tree.nodes = some (.dictN entries) →
      (∀ c : List String, ¬ isClosedCycle entries c) →
      detect_circular_references tree = .ok res → res = []) ∧
    detect_circular_references treeSelfLoop = .ok [["x", "x"]] ∧
    detect_circular_references tree3Cycle = .ok [["A", "B", "C", "A"]] ∧
    detect_circular_references treeIslands = .ok [["E", "F", "E"]] := by
  refine ⟨?_, ?_, rfl, rfl, rfl⟩
  · intro tree entries res hn h c hc
    exact detect_circular_references_sound tree entries res hn h c hc
  · intro tree entries res hn hacyc h
    cases hres : res with
    | nil => rfl
    | cons c cs =>
        have hcyc := detect_circular_references_sound tree entries res hn h c
          (by rw [hres]; exact List.mem_cons_self c cs)
        exact absurd hcyc (hacyc c)

/-- C6 witness: the contract instantiated on the concrete 3-cycle tree,
checking the returned cycle is closed. -/
theorem cycle_detector_contract_witness :
    tree3Cycle.nodes = some (.dictN entries3Cycle) ∧
    ∀ c ∈ [["A", "B", "C", "A"]], ∃ n, c.head? = some n ∧
      c.getLast? = some n ∧
      List.Chain' (detectEdge entries3Cycle) c ∧ 2 ≤ c.length :=
  ⟨rfl, cycle_detector_contract.1 tree3Cycle entries3Cycle
    [["A", "B", "C", "A"]] rfl rfl⟩

/-- The grouping key resolve_conflicts files a conflict under. -/
def conflictKey (c : Conflict) : String := c.type.getD "unknown"

/-- Occurrences of a conflict among the conflict fields of resolution
entries. -/
def cntR (l : List ResolvedEntry) (c : Conflict) : Nat :=
  (l.map (fun e => e.conflict)).count c

/-- Total occurrences of a conflict across the buckets of a grouping. -/
def countFlat (g : List (String × List Conflict)) (c : Conflict) : Nat :=
  (g.map (fun p => p.2.count c)).sum

theorem cntR_append_entry (r0 : List ResolvedEntry) (a c : Conflict)
    (s : String) :
    cntR (r0 ++ [⟨a, s⟩]) c = cntR r0 c + if a = c then 1 else 0 := by
  unfold cntR
  rw [List.map_append, List.count_append]
  by_cases hac : a = c
  · simp [hac]
  · simp [List.count_cons, hac]

theorem count_append_single (u0 : List Conflict) (a c : Conflict) :
    (u0 ++ [a]).count c = u0.count c + if a = c then 1 else 0 := by
  rw [List.count_append]
  by_cases hac : a = c
  · simp [hac]
  · simp [List.count_cons, hac]

theorem countFlat_groupInsert (g : List (String × List Conflict))
    (ty : String) (a c : Conflict) :
    countFlat (groupInsert g ty a) c =
      countFlat g c + if a = c then 1 else 0 := by
  induction g with
  | nil =>
      unfold groupInsert countFlat
      by_cases hac : a = c
      · simp [hac]
      · simp [List.count_cons, hac]
  | cons p rest ihg =>
      unfold groupInsert
      by_cases hk : p.1 = ty
      · cases p
        simp only [] at hk
        rw [if_pos hk]
        unfold countFlat
        simp only [List.map_cons, List.sum_cons]
        rw [count_append_single]
        have : countFlat rest c = (rest.map (fun p => p.2.count c)).sum := rfl
        omega
      · cases p
        simp only [] at hk
        rw [if_neg hk]
        unfold countFlat
        simp only [List.map_cons, List.sum_cons]
        have h2 := ihg
        unfold countFlat at h2
        omega

theorem countFlat_groupFold (c : Conflict) :
    ∀ (l : List Conflict) (g : List (String × List Conflict)),
      countFlat (l.foldl (fun g2 c2 =>
        groupInsert g2 (c2.type.getD "unknown") c2) g) c =
      countFlat g c + l.count c := by
  intro l
  induction l with
  | nil => intro g; simp
  | cons a rest ihl =>
      intro g
      rw [List.foldl_cons, ihl, countFlat_groupInsert, List.count_cons]
      by_cases hac : a = c
      · simp only [hac, beq_self_eq_true, if_pos rfl, if_true]
        omega
      · have hr : (a == c) = false := by
          rw [beq_eq_false_iff_ne]
          exact hac
        rw [hr]
        simp only [Bool.false_eq_true, if_false, if_neg hac]
        omega

theorem circStep_shape (st : CircState) (a : Conflict) :
    (circStep st a).2 = (none, none) ∨ (circStep st a).2 = (none, some a) ∨
    ∃ s, (circStep st a).2 = (some ⟨a, s⟩, none) := by
  unfold circStep
  simp only []
  split
  · split
    · exact Or.inl rfl
    · split
      · exact Or.inl rfl
      · split
        · exact Or.inr (Or.inl rfl)
        · exact Or.inr (Or.inr ⟨_, rfl⟩)
  · exact Or.inr (Or.inl rfl)

theorem redunStep_shape (st : RedunState) (a : Conflict) :
    (redunStep st a).2 = (none, none) ∨ (redunStep st a).2 = (none, some a) ∨
    ∃ s, (redunStep st a).2 = (some ⟨a, s⟩, none) := by
  unfold redunStep
  simp only []
  split
  · split
    · exact Or.inr (Or.inr ⟨_, rfl⟩)
    · exact Or.inr (Or.inl rfl)
  · exact Or.inl rfl

/-- Accounting for handler folds that carry a state and emit at most one
resolution or unresolved record per conflict. -/
theorem foldl_step_count {σ : Type} (step : σ → Conflict →
      σ × Option ResolvedEntry × Option Conflict)
    (hshape : ∀ st a, (step st a).2 = (none, none) ∨
      (step st a).2 = (none, some a) ∨
      ∃ s, (step st a).2 = (some ⟨a, s⟩, none)) (c : Conflict) :
    ∀ (l : List Conflict) (st0 : σ) (r0 : List ResolvedEntry)
      (u0 : List Conflict),
      cntR (l.foldl (fun acc a =>
          let r := step acc.1 a
          (r.1, acc.2.1 ++ r.2.1.toList, acc.2.2 ++ r.2.2.toList))
        (st0, r0, u0)).2.1 c +
      ((l.foldl (fun acc a =>
          let r := step acc.1 a
          (r.1, acc.2.1 ++ r.2.1.toList, acc.2.2 ++ r.2.2.toList))
        (st0, r0, u0)).2.2).count c ≤
      cntR r0 c + u0.count c + l.count c := by
  intro l
  induction l with
  | nil => intro st0 r0 u0; simp
  | cons a rest ihl =>
      intro st0 r0 u0
      rw [List.foldl_cons]
      simp only []
      have hstep := ihl (step st0 a).1 (r0 ++ (step st0 a).2.1.toList)
        (u0 ++ (step st0 a).2.2.toList)
      have hone : cntR (r0 ++ (step st0 a).2.1.toList) c +
          (u0 ++ (step st0 a).2.2.toList).count c ≤
          cntR r0 c + u0.count c + (if a = c then 1 else 0) := by
        rcases hshape st0 a with hs | hs | hs
        · rw [congrArg Prod.fst hs, congrArg Prod.snd hs]
          simp only [Option.toList_none, List.append_nil]
          omega
        · rw [congrArg Prod.fst hs, congrArg Prod.snd hs]
          simp only [Option.toList_none, Option.toList_some, List.append_nil]
          rw [count_append_single]
          omega
        · rcases hs with ⟨s, hs⟩
          rw [congrArg Prod.fst hs, congrArg Prod.snd hs]
          simp only [Option.toList_none, Option.toList_some, List.append_nil]
          rw [cntR_append_entry]
          omega
      have hcnt : List.count c (a :: rest) =
          List.count c rest + (if a = c then 1 else 0) := by
        rw [List.count_cons]
        by_cases hac : a = c
        · simp [hac]
        · have hr : (a == c) = false := by
            rw [beq_eq_false_iff_ne]
            exact hac
          rw [hr]
          simp [hac]
      rw [hcnt]
      simp only [] at hstep
      omega

theorem contradictoryPaths_count (llm : RepairOracle) (c : Conflict) :
    ∀ (l : List Conflict) (t0 : Tree) (r0 : List ResolvedEntry)
      (u0 : List Conflict),
      cntR (l.foldl (fun (acc : Tree × List ResolvedEntry × List Conflict) a =>
          match llm a acc.1 with
          | .ok r => (r.2, acc.2.1 ++ [⟨a, r.1⟩], acc.2.2)
          | .error _ => (acc.1, acc.2.1, acc.2.2 ++ [a]))
        (t0, r0, u0)).2.1 c +
      ((l.foldl (fun (acc : Tree × List ResolvedEntry × List Conflict) a =>
          match llm a acc.1 with
          | .ok r => (r.2, acc.2.1 ++ [⟨a, r.1⟩], acc.2.2)
          | .error _ => (acc.1, acc.2.1, acc.2.2 ++ [a]))
        (t0, r0, u0)).2.2).count c ≤
      cntR r0 c + u0.count c + l.count c := by
  intro l
  induction l with
  | nil => intro t0 r0 u0; simp
  | cons a rest ihl =>
      intro t0 r0 u0
      rw [List.foldl_cons]
      simp only []
      have hcnt : List.count c (a :: rest) =
          List.count c rest + (if a = c then 1 else 0) := by
        rw [List.count_cons]
        by_cases hac : a = c
        · simp [hac]
        · have hr : (a == c) = false := by
            rw [beq_eq_false_iff_ne]
            exact hac
          rw [hr]
          simp [hac]
      rw [hcnt]
      cases hl : llm a t0 with
      | ok r =>
          simp only []
          have hstep := ihl r.2 (r0 ++ [⟨a, r.1⟩]) u0
          rw [cntR_append_entry] at hstep
          omega
      | error e =>
          simp only []
          have hstep := ihl t0 r0 (u0 ++ [a])
          rw [count_append_single] at hstep
          omega

theorem overlappingConditions_count (llmText : TextOracle) (c : Conflict) :
    ∀ (l : List Conflict) (r0 : List ResolvedEntry) (u0 : List Conflict),
      cntR (l.foldl (fun (acc : List ResolvedEntry × List Conflict) a =>
          match llmText a with
          | .ok _ => (acc.1 ++ [⟨a, "Refined overlapping conditions"⟩], acc.2)
          | .error _ => (acc.1, acc.2 ++ [a]))
        (r0, u0)).1 c +
      ((l.foldl (fun (acc : List ResolvedEntry × List Conflict) a =>
          match llmText a with
          | .ok _ => (acc.1 ++ [⟨a, "Refined overlapping conditions"⟩], acc.2)
          | .error _ => (acc.1, acc.2 ++ [a]))
        (r0, u0)).2).count c ≤
      cntR r0 c + u0.count c + l.count c := by
  intro l
  induction l with
  | nil => intro r0 u0; simp
  | cons a rest ihl =>
      intro r0 u0
      rw [List.foldl_cons]
      simp only []
      have hcnt : List.count c (a :: rest) =
          List.count c rest + (if a = c then 1 else 0) := by
        rw [List.count_cons]
        by_cases hac : a = c
        · simp [hac]
        · have hr : (a == c) = false := by
            rw [beq_eq_false_iff_ne]
            exact hac
          rw [hr]
          simp [hac]
      rw [hcnt]
      cases hl : llmText a with
      | ok r =>
          simp only []
          have hstep := ihl (r0 ++ [⟨a, "Refined overlapping conditions"⟩]) u0
          rw [cntR_append_entry] at hstep
          omega
      | error e =>
          simp only []
          have hstep := ihl r0 (u0 ++ [a])
          rw [count_append_single] at hstep
          omega

/-- Per-group accounting of the dispatcher: each handler returns every
conflict of its group at most once across resolved and unresolved. -/
theorem dispatchGroup_count (llm : RepairOracle) (llmText : TextOracle)
    (tree : Tree) (ty : String) (group : List Conflict) (c : Conflict) :
    cntR (dispatchGroup llm llmText tree ty group).resolved c +
      ((dispatchGroup llm llmText tree ty group).unresolved).count c ≤
      group.count c := by
  unfold dispatchGroup
  by_cases h1 : ty = "contradictory_paths"
  · rw [if_pos h1]
    unfold resolveContradictoryPaths
    simp only []
    have h := contradictoryPaths_count llm c group tree [] []
    simpa [cntR] using h
  · rw [if_neg h1]
    by_cases h2 : ty = "circular_dependency"
    · rw [if_pos h2]
      unfold resolveCircularDependencies
      simp only []
      have h := foldl_step_count circStep circStep_shape c group
        (match tree.nodes with
         | some (Nodes.dictN es) => ⟨Nodes.dictN es, es.map (fun p => p.2)⟩
         | some (Nodes.listN l) => ⟨Nodes.listN l, l⟩
         | none => ⟨Nodes.listN [], []⟩) [] []
      simpa [cntR] using h
    · rw [if_neg h2]
      by_cases h3 : ty = "redundant_paths"
      · rw [if_pos h3]
        unfold resolveRedundantPaths
        cases htn : tree.nodes with
        | none =>
            simp only []
            have h := foldl_step_count redunStep redunStep_shape c group
              ⟨[], none⟩ [] []
            simpa [cntR] using h
        | some ns =>
            cases ns with
            | dictN es =>
                cases es with
                | nil =>
                    simp only []
                    have h := foldl_step_count redunStep redunStep_shape c
                      group ⟨[], none⟩ [] []
                    simpa [cntR] using h
                | cons e es2 =>
                    simp only []
                    have h : ((group.filter
                        (fun c2 => 1 < (c2.nodes.getD []).length)).count c) ≤
                        group.count c :=
                      (List.filter_sublist group).count_le c
                    simp only [cntR, List.map_nil, List.count_nil]
                    omega
            | listN nl =>
                simp only []
                have h := foldl_step_count redunStep redunStep_shape c group
                  ⟨nl, none⟩ [] []
                simpa [cntR] using h
      · rw [if_neg h3]
        by_cases h4 : ty = "overlapping_conditions"
        · rw [if_pos h4]
          unfold resolveOverlappingConditions
          simp only []
          have h := overlappingConditions_count llmText c group [] []
          simpa [cntR] using h
        · rw [if_neg h4]
          simp only [cntR, List.map_nil, List.count_nil]
          omega

/-- Accounting of the top fold of resolve_conflicts over the groups. -/
theorem resolveFold_count (llm : RepairOracle) (llmText : TextOracle)
    (c : Conflict) :
    ∀ (gs : List (String × List Conflict)) (t0 : Tree)
      (r0 : List ResolvedEntry) (u0 : List Conflict),
      cntR (gs.foldl
        (fun (acc : Tree × List ResolvedEntry × List Conflict) g =>
          let r := dispatchGroup llm llmText acc.1 g.1 g.2
          (r.tree, acc.2.1 ++ r.resolved, acc.2.2 ++ r.unresolved))
        (t0, r0, u0)).2.1 c +
      ((gs.foldl
        (fun (acc : Tree × List ResolvedEntry × List Conflict) g =>
          let r := dispatchGroup llm llmText acc.1 g.1 g.2
          (r.tree, acc.2.1 ++ r.resolved, acc.2.2 ++ r.unresolved))
        (t0, r0, u0)).2.2).count c ≤
      cntR r0 c + u0.count c + countFlat gs c := by
  intro gs
  induction gs with
  | nil => intro t0 r0 u0; simp [countFlat]
  | cons g rest ihg =>
      intro t0 r0 u0
      rw [List.foldl_cons]
      simp only []
      have hstep := ihg (dispatchGroup llm llmText t0 g.1 g.2).tree
        (r0 ++ (dispatchGroup llm llmText t0 g.1 g.2).resolved)
        (u0 ++ (dispatchGroup llm llmText t0 g.1 g.2).unresolved)
      have hgr := dispatchGroup_count llm llmText t0 g.1 g.2 c
      have h1 : cntR (r0 ++ (dispatchGroup llm llmText t0 g.1 g.2).resolved) c
          = cntR r0 c +
            cntR (dispatchGroup llm llmText t0 g.1 g.2).resolved c := by
        unfold cntR
        rw [List.map_append, List.count_append]
      have h2 : (u0 ++ (dispatchGroup llm llmText t0 g.1 g.2).unresolved).count
          c = u0.count c +
            ((dispatchGroup llm llmText t0 g.1 g.2).unresolved).count c :=
        List.count_append c u0 _
      have h3 : countFlat (g :: rest) c = g.2.count c + countFlat rest c := by
        unfold countFlat
        simp
      rw [h1, h2] at hstep
      simp only [] at hstep
      omega


theorem groupInsert_mem (g : List (String × List Conflict)) (ty : String)
    (a : Conflict) :
    ∃ grp, (ty, grp) ∈ groupInsert g ty a ∧ a ∈ grp := by
  induction g with
  | nil =>
      exact ⟨[a], List.mem_singleton.mpr rfl, List.mem_singleton.mpr rfl⟩
  | cons p rest ihg =>
      unfold groupInsert
      cases p with
      | mk k bl =>
          by_cases hk : k = ty
          · rw [if_pos hk]
            subst hk
            exact ⟨bl ++ [a], List.mem_cons_self _ _,
              List.mem_append_right _ (List.mem_singleton.mpr rfl)⟩
          · rw [if_neg hk]
            rcases ihg with ⟨grp, hmem, ha⟩
            exact ⟨grp, List.mem_cons_of_mem _ hmem, ha⟩

theorem groupInsert_mem_mono (g : List (String × List Conflict)) (ty : String)
    (a : Conflict) (k : String) (grp : List Conflict) (x : Conflict)
    (hg : (k, grp) ∈ g) (hx : x ∈ grp) :
    ∃ grp2, (k, grp2) ∈ groupInsert g ty a ∧ x ∈ grp2 := by
  induction g with
  | nil => exact absurd hg (List.not_mem_nil _)
  | cons p rest ihg =>
      unfold groupInsert
      cases p with
      | mk k0 bl =>
          by_cases hk : k0 = ty
          · rw [if_pos hk]
            rcases List.mem_cons.mp hg with hh | ht
            · injection hh with hh1 hh2
              subst hh1
              subst hh2
              exact ⟨grp ++ [a], List.mem_cons_self _ _,
                List.mem_append_left _ hx⟩
            · exact ⟨grp, List.mem_cons_of_mem _ ht, hx⟩
          · rw [if_neg hk]
            rcases List.mem_cons.mp hg with hh | ht
            · injection hh with hh1 hh2
              subst hh1
              subst hh2
              exact ⟨grp, List.mem_cons_self _ _, hx⟩
            · rcases ihg ht with ⟨grp2, hmem, hx2⟩
              exact ⟨grp2, List.mem_cons_of_mem _ hmem, hx2⟩

theorem groupFold_mem_mono (k : String) (x : Conflict) :
    ∀ (l : List Conflict) (g : List (String × List Conflict))
      (grp : List Conflict),
      (k, grp) ∈ g → x ∈ grp →
      ∃ grp2, (k, grp2) ∈ l.foldl (fun g2 c2 =>
        groupInsert g2 (c2.type.getD "unknown") c2) g ∧ x ∈ grp2 := by
  intro l
  induction l with
  | nil => intro g grp hg hx; exact ⟨grp, hg, hx⟩
  | cons a rest ihl =>
      intro g grp hg hx
      rw [List.foldl_cons]
      rcases groupInsert_mem_mono g (a.type.getD "unknown") a k grp x hg hx
        with ⟨grp2, hmem, hx2⟩
      exact ihl _ grp2 hmem hx2

theorem groupFold_mem (x : Conflict) :
    ∀ (l : List Conflict) (g : List (String × List Conflict)),
      x ∈ l →
      ∃ grp, (conflictKey x, grp) ∈ l.foldl (fun g2 c2 =>
        groupInsert g2 (c2.type.getD "unknown") c2) g ∧ x ∈ grp := by
  intro l
  induction l with
  | nil => intro g hx; exact absurd hx (List.not_mem_nil _)
  | cons a rest ihl =>
      intro g hx
      rw [List.foldl_cons]
      rcases List.mem_cons.mp hx with hh | ht
      · subst hh
        rcases groupInsert_mem g (conflictKey x) x with ⟨grp, hmem, hxg⟩
        exact groupFold_mem_mono (conflictKey x) x rest _ grp hmem hxg
      · exact ihl _ ht

theorem resolveFold_unresolved_mono (llm : RepairOracle)
    (llmText : TextOracle) (x : Conflict) :
    ∀ (gs : List (String × List Conflict)) (t0 : Tree)
      (r0 : List ResolvedEntry) (u0 : List Conflict),
      x ∈ u0 →
      x ∈ (gs.foldl
        (fun (acc : Tree × List ResolvedEntry × List Conflict) g =>
          let r := dispatchGroup llm llmText acc.1 g.1 g.2
          (r.tree, acc.2.1 ++ r.resolved, acc.2.2 ++ r.unresolved))
        (t0, r0, u0)).2.2 := by
  intro gs
  induction gs with
  | nil => intro t0 r0 u0 hx; exact hx
  | cons g rest ihg =>
      intro t0 r0 u0 hx
      rw [List.foldl_cons]
      simp only []
      exact ihg _ _ _ (List.mem_append_left _ hx)

/-- A group keyed by an unknown type string lands wholesale in the final
unresolved list, wherever it sits among the groups. -/
theorem resolveFold_unknown_mem (llm : RepairOracle) (llmText : TextOracle)
    (k : String) (x : Conflict)
    (h1 : k ≠ "contradictory_paths") (h2 : k ≠ "circular_dependency")
    (h3 : k ≠ "redundant_paths") (h4 : k ≠ "overlapping_conditions") :
    ∀ (gs : List (String × List Conflict)) (grp : List Conflict)
      (t0 : Tree) (r0 : List ResolvedEntry) (u0 : List Conflict),
      (k, grp) ∈ gs → x ∈ grp →
      x ∈ (gs.foldl
        (fun (acc : Tree × List ResolvedEntry × List Conflict) g =>
          let r := dispatchGroup llm llmText acc.1 g.1 g.2
          (r.tree, acc.2.1 ++ r.resolved, acc.2.2 ++ r.unresolved))
        (t0, r0, u0)).2.2 := by
  intro gs
  induction gs with
  | nil => intro grp t0 r0 u0 hg hx; exact absurd hg (List.not_mem_nil _)
  | cons g rest ihg =>
      intro grp t0 r0 u0 hg hx
      rw [List.foldl_cons]
      simp only []
      rcases List.mem_cons.mp hg with hh | ht
      · have hgk : g.1 = k := by
          rw [← hh]
        have hggrp : g.2 = grp := by
          rw [← hh]
        have hdis : dispatchGroup llm llmText t0 g.1 g.2 = ⟨t0, [], g.2⟩ := by
          unfold dispatchGroup
          rw [hgk, if_neg h1, if_neg h2, if_neg h3, if_neg h4]
        rw [hdis]
        apply resolveFold_unresolved_mono
        apply List.mem_append_right
        rw [hggrp]
        exact hx
      · exact ihg grp _ _ _ ht hx

/-- C3 counterexample: a circular-dependency conflict whose cycle nodes
are absent from the tree is returned in neither resolutions nor
unresolved: the source loop finds no from-node and falls through without
recording anything, so the conflict disappears. -/
theorem resolveConflicts_silent_drop_counterexample :
    resolveConflicts (fun _ _ => .error ()) (fun _ => .error ())
      ⟨some (.listN []), []⟩
      (.pyList [⟨some "circular_dependency", none,
        some ["a", "b", "a"], none⟩]) =
      ⟨⟨some (.listN []), []⟩, [], []⟩ := by rfl

/-- C3 (amended): resolve_conflicts never duplicates a conflict across
the returned lists (each occurrence is answered at most once in
resolutions plus unresolved), and a conflict of unknown kind is always
returned in unresolved; but circular-dependency conflicts whose from-node
cannot be located and redundant-path conflicts listing at most one node
are silently dropped, so exactly-once accounting fails. -/
theorem resolveConflicts_accounting (llm : RepairOracle)
    (llmText : TextOracle) (tree : Tree) (l : List Conflict) (c : Conflict) :
    (cntR (resolveConflicts llm llmText tree (.pyList l)).resolutions c +
      ((resolveConflicts llm llmText tree (.pyList l)).unresolved).count c ≤
      l.count c) ∧
    (c ∈ l →
      conflictKey c ≠ "contradictory_paths" →
      conflictKey c ≠ "circular_dependency" →
      conflictKey c ≠ "redundant_paths" →
      conflictKey c ≠ "overlapping_conditions" →
      c ∈ (resolveConflicts llm llmText tree (.pyList l)).unresolved) := by
  unfold resolveConflicts
  simp only []
  by_cases hemp : l.isEmpty = true
  · rw [if_pos hemp]
    constructor
    · simp [cntR]
    · intro hc _ _ _ _
      rw [List.isEmpty_iff] at hemp
      rw [hemp] at hc
      exact absurd hc (List.not_mem_nil c)
  · rw [if_neg hemp]
    constructor
    · have hfold := resolveFold_count llm llmText c
        (groupConflictsByType l) tree [] []
      have hflat : countFlat (groupConflictsByType l) c = l.count c := by
        have h := countFlat_groupFold c l []
        unfold groupConflictsByType
        rw [h]
        simp [countFlat]
      rw [hflat] at hfold
      simpa [cntR] using hfold
    · intro hc h1 h2 h3 h4
      rcases groupFold_mem c l [] hc with ⟨grp, hmem, hcg⟩
      exact resolveFold_unknown_mem llm llmText (conflictKey c) c h1 h2 h3 h4
        (groupConflictsByType l) grp tree [] [] hmem hcg

/-- A conflict of a kind no handler knows. -/
def weirdConflict : Conflict := ⟨some "weird_kind", none, some ["a"], none⟩

/-- A concrete run of the resolver on the unknown-kind conflict. -/
def weirdResult : ResolveResult :=
  resolveConflicts (fun _ _ => .error ()) (fun _ => .error ())
    ⟨none, []⟩ (.pyList [weirdConflict])

/-- C3 witness: a conflict of unknown kind on a concrete run is answered
exactly once, in the unresolved list. -/
theorem resolveConflicts_accounting_witness :
    (cntR weirdResult.resolutions weirdConflict +
      weirdResult.unresolved.count weirdConflict ≤
      ([weirdConflict] : List Conflict).count weirdConflict) ∧
    weirdConflict ∈ weirdResult.unresolved :=
  ⟨(resolveConflicts_accounting (fun _ _ => .error ()) (fun _ => .error ())
      ⟨none, []⟩ [weirdConflict] weirdConflict).1,
   (resolveConflicts_accounting (fun _ _ => .error ()) (fun _ => .error ())
      ⟨none, []⟩ [weirdConflict] weirdConflict).2
    (List.mem_singleton.mpr rfl) (by decide) (by decide) (by decide)
    (by decide)⟩

end PriorAuth
